import Mathlib

/-
Verification of the k-way sorted-line merger from src/src/lib.rs
(`Heap`, `Entry`, `Heap::add_reader`, `Heap::readd_reader`, `Iterator::next`).

Modelling conventions:
- A Rust `String` is modelled as a Lean `String` (a list of Unicode scalar
  values).  Rust compares strings bytewise over UTF-8, which coincides with
  scalar-value lexicographic order, modelled here by `strCmp`.
- The underlying readable byte stream (`T : io::Read` wrapped in a
  `BufReader`) is modelled by `Source`: the characters still to be delivered,
  plus an optional fault code; once the available characters are exhausted a
  faulty source makes the next read fail with that code, a fault-free source
  reports end of file.
- `std::collections::BinaryHeap` is modelled by its actual algorithm
  (`push` does a sift-up from the appended slot; `pop` removes the last
  element, swaps it into the root and runs `sift_down_to_bottom`, a blind
  walk to the bottom followed by a sift-up).  This matters because the
  program's comparator (`Entry::cmp`) is not a lawful total order when two
  distinct entries share a filename, so heap behaviour on such inputs
  depends on the concrete algorithm.
- Recursions that are not structural carry an explicit fuel argument that is
  provably large enough, so every definition evaluates by kernel reduction.
-/

/-- Scalar-value comparison of characters (Rust's byte order on UTF-8 data). -/
def charCmp (a b : Char) : Ordering :=
  if a.toNat < b.toNat then .lt else if b.toNat < a.toNat then .gt else .eq

/-- Lexicographic comparison of character lists (Rust's `Ord` for `str`). -/
def listCmp : List Char → List Char → Ordering
  | [], [] => .eq
  | [], _ :: _ => .lt
  | _ :: _, [] => .gt
  | a :: l₁, b :: l₂ =>
    match charCmp a b with
    | .eq => listCmp l₁ l₂
    | o => o

/-- Rust's `String::cmp`. -/
def strCmp (a b : String) : Ordering := listCmp a.data b.data

/-- Non-decreasing relation on strings: `a` is lexicographically at most `b`. -/
def strLe (a b : String) : Prop := strCmp a b ≠ Ordering.gt

instance : DecidableRel strLe := fun a b =>
  if h : strCmp a b = Ordering.gt then isFalse (fun hne => hne h) else isTrue h

instance strLeChainDec : (l : List String) → Decidable (List.Chain' strLe l)
  | [] => isTrue List.chain'_nil
  | [a] => isTrue (List.chain'_singleton a)
  | a :: b :: t =>
    have : Decidable (List.Chain' strLe (b :: t)) := strLeChainDec (b :: t)
    decidable_of_iff (strLe a b ∧ List.Chain' strLe (b :: t)) List.chain'_cons.symm

/-- The Unicode White_Space property, as tested by Rust's `char::is_whitespace`. -/
def isRustWhitespace (c : Char) : Bool :=
  let n := c.toNat
  decide ((9 ≤ n ∧ n ≤ 13) ∨ n = 32 ∨ n = 133 ∨ n = 160 ∨ n = 5760 ∨
    (8192 ≤ n ∧ n ≤ 8202) ∨ n = 8232 ∨ n = 8233 ∨ n = 8239 ∨ n = 8287 ∨ n = 12288)

/-- Rust's `str::trim_end`: drop the longest suffix of whitespace characters. -/
def trimEnd (s : String) : String :=
  ⟨(s.data.reverse.dropWhile isRustWhitespace).reverse⟩

/-- The state of a buffered readable stream: characters still to be delivered,
plus an optional fault code raised once those characters run out mid-read. -/
structure Source where
  content : List Char
  fault : Option Nat
deriving DecidableEq

/-- One `io::BufRead::read_line` call on a `Source`: read up to and including
the next newline (or to end of data), returning the raw line, the number of
characters read, and the advanced source; a fault hit before a newline or any
data is found is returned as an error. -/
def readLine (s : Source) : Except Nat (String × Nat × Source) :=
  let pre := s.content.takeWhile (fun c => decide (c ≠ '\n'))
  match s.content.dropWhile (fun c => decide (c ≠ '\n')) with
  | [] =>
    match s.fault with
    | some e => .error e
    | none => .ok (⟨pre⟩, pre.length, ⟨[], none⟩)
  | _ :: rest => .ok (⟨pre ++ ['\n']⟩, pre.length + 1, ⟨rest, s.fault⟩)

/-- `Entry` from src/src/lib.rs lines 92-100: one stream cursor. -/
structure Entry where
  filename : String
  reader : Source
  first_line : String
deriving DecidableEq

/-- `Ord for Entry` (src/src/lib.rs lines 113-124): entries with equal
filenames compare equal outright; otherwise the comparison of the buffered
lines is reversed (so the max-heap becomes a min-heap on lines). -/
def Entry.cmp (a b : Entry) : Ordering :=
  if a.filename = b.filename then .eq
  else (strCmp a.first_line b.first_line).swap

/-- Rust's derived `<=` on `Entry`, used by `BinaryHeap`. -/
def Entry.le (a b : Entry) : Bool := (Entry.cmp a b).isLE

section BinHeapDefs

variable {α : Type} (le : α → α → Bool)

/-- Swap the elements at positions `i` and `j` (identity when out of range). -/
def swapAt (l : List α) (i j : Nat) : List α :=
  match l[i]?, l[j]? with
  | some a, some b => (l.set i b).set j a
  | _, _ => l

/-- Fuelled core of `BinaryHeap::sift_up`: bubble the element at `pos` toward
the root while it is greater than its parent, stopping at `start`. -/
def sift_up_go : Nat → List α → Nat → Nat → List α
  | 0, l, _, _ => l
  | fuel + 1, l, start, pos =>
    if pos ≤ start then l
    else
      match l[pos]?, l[(pos - 1) / 2]? with
      | some x, some p =>
        if le x p then l
        else sift_up_go fuel (swapAt l ((pos - 1) / 2) pos) start ((pos - 1) / 2)
      | _, _ => l

/-- `BinaryHeap::sift_up` (fuel `pos` always suffices since the position
strictly decreases). -/
def sift_up (l : List α) (start pos : Nat) : List α := sift_up_go le pos l start pos

/-- Fuelled core of `BinaryHeap::sift_down_to_bottom`'s walking loop: move the
hole down to the bottom of the heap, always through the greater child,
returning the final array and hole position. -/
def sift_down_go : Nat → List α → Nat → List α × Nat
  | 0, l, pos => (l, pos)
  | fuel + 1, l, pos =>
    if 2 * pos + 2 < l.length then
      match l[2 * pos + 1]?, l[2 * pos + 2]? with
      | some a, some b =>
        if le a b then sift_down_go fuel (swapAt l pos (2 * pos + 2)) (2 * pos + 2)
        else sift_down_go fuel (swapAt l pos (2 * pos + 1)) (2 * pos + 1)
      | _, _ => (l, pos)
    else if 2 * pos + 2 = l.length then
      (swapAt l pos (2 * pos + 1), 2 * pos + 1)
    else (l, pos)

/-- `BinaryHeap::sift_down_to_bottom`: walk the hole to the bottom, then sift
the displaced element back up (fuel `l.length` always suffices). -/
def sift_down_to_bottom (l : List α) (pos : Nat) : List α :=
  let p := sift_down_go le l.length l pos
  sift_up le p.1 pos p.2

/-- `BinaryHeap::push`: append, then sift up from the last slot. -/
def heapPush (l : List α) (x : α) : List α := sift_up le (l ++ [x]) 0 l.length

/-- `BinaryHeap::pop`: remove the last element; if anything remains, swap it
into the root slot and restore the heap with `sift_down_to_bottom`. -/
def heapPop (l : List α) : Option (α × List α) :=
  match l.getLast? with
  | none => none
  | some last =>
    match l.dropLast with
    | [] => some (last, [])
    | r0 :: rtl => some (r0, sift_down_to_bottom le (last :: rtl) 0)

end BinHeapDefs

/-- `Heap` from src/src/lib.rs lines 5-11: the merger state. -/
structure Heap where
  heap : List Entry
deriving DecidableEq

/-- Errors surfaced by the merger: a propagated read failure, or the
out-of-order diagnostic carrying the offending stream's filename
(`io::Error::new(Other, format!("Input lines in file [{}] out of order!", filename))`). -/
inductive MergeError where
  | readFail (code : Nat)
  | outOfOrder (filename : String)
deriving DecidableEq

/-- `Heap::new` (src/src/lib.rs lines 17-20). -/
def Heap.new : Heap := ⟨[]⟩

/-- `Heap::readd_reader` (src/src/lib.rs lines 27-45): read one line; if any
characters were read, trim trailing whitespace, push a cursor holding the
trimmed line, and return it; on zero characters return `none`; propagate a
read failure. -/
def Heap.readd_reader (h : Heap) (filename : String) (buf_reader : Source) :
    Except MergeError (Option String) × Heap :=
  match readLine buf_reader with
  | .error e => (.error (.readFail e), h)
  | .ok (line, n, rdr) =>
    if 0 < n then
      let first_line := trimEnd line
      (.ok (some first_line), ⟨heapPush Entry.le h.heap ⟨filename, rdr, first_line⟩⟩)
    else (.ok none, h)

/-- `Heap::add_reader` (src/src/lib.rs lines 22-25): wrap the reader in a
`BufReader` (already part of `Source`) and delegate to `readd_reader`. -/
def Heap.add_reader (h : Heap) (filename : String) (reader : Source) :
    Except MergeError (Option String) × Heap :=
  h.readd_reader filename reader

/-- `Iterator::next for Heap` (src/src/lib.rs lines 65-89): pop the top
cursor, re-add its advanced reader (which pushes the follow-up line, if any,
back into the heap), then report an out-of-order error if the follow-up line
is strictly below the popped head, otherwise yield the popped head; a read
failure is yielded as an error.  Returns the produced item and the new state. -/
def Heap.next (h : Heap) : Option (Except MergeError String) × Heap :=
  match heapPop Entry.le h.heap with
  | none => (none, h)
  | some (e, rest) =>
    match Heap.readd_reader ⟨rest⟩ e.filename e.reader with
    | (.ok next_line, h2) =>
      match next_line with
      | some nl =>
        if strCmp nl e.first_line = .lt then (some (.error (.outOfOrder e.filename)), h2)
        else (some (.ok e.first_line), h2)
      | none => (some (.ok e.first_line), h2)
    | (.error err, h2) => (some (.error err), h2)

/-- Total work left in a merger state: one unit per cursor plus one per
character still to be delivered; every successful `Heap.next` strictly
decreases it. -/
def heapMeasure (h : Heap) : Nat :=
  (h.heap.map (fun e => 1 + e.reader.content.length)).sum

/-- Repeatedly call `Heap.next`, collecting produced items, with fuel. -/
def drainFuel : Nat → Heap → List (Except MergeError String)
  | 0, _ => []
  | fuel + 1, h =>
    match Heap.next h with
    | (none, _) => []
    | (some r, h2) => r :: drainFuel fuel h2

/-- The full sequence of items produced by calling `Heap.next` until it
signals end of sequence (`heapMeasure h + 1` calls always suffice). -/
def drain (h : Heap) : List (Except MergeError String) :=
  drainFuel (heapMeasure h + 1) h

/-- Register a list of labelled streams in order via `Heap.add_reader`. -/
def addAll (h : Heap) (streams : List (String × Source)) : Heap :=
  streams.foldl (fun acc p => (Heap.add_reader acc p.1 p.2).2) h

instance {E A : Type} [DecidableEq E] [DecidableEq A] : DecidableEq (Except E A) := fun a b =>
  match a, b with
  | .ok x, .ok y =>
    if h : x = y then isTrue (by rw [h]) else isFalse (fun hc => h (Except.ok.injEq .. ▸ hc))
  | .error x, .error y =>
    if h : x = y then isTrue (by rw [h]) else isFalse (fun hc => h (Except.error.injEq .. ▸ hc))
  | .ok _, .error _ => isFalse Except.noConfusion
  | .error _, .ok _ => isFalse Except.noConfusion

/-- The merger state reached after `k` further `Heap.next` calls. -/
def nextIter (h : Heap) : Nat → Heap
  | 0 => h
  | k + 1 => (Heap.next (nextIter h k)).2

/-- Fuelled core of `linesOf`. -/
def linesOfGo : Nat → List Char → List String
  | 0, _ => []
  | _ + 1, [] => []
  | fuel + 1, c :: l =>
    trimEnd ⟨(c :: l).takeWhile (fun ch => decide (ch ≠ '\n'))⟩ ::
      linesOfGo fuel (((c :: l).dropWhile (fun ch => decide (ch ≠ '\n'))).drop 1)

/-- The lines a fault-free source with the given content delivers to the
merger: split at newlines exactly as iterated `read_line` calls would, each
line trimmed of trailing whitespace as `readd_reader` stores it. -/
def linesOf (content : List Char) : List String := linesOfGo content.length content

/-- The binary-heap shape invariant: every non-root slot is `le` its parent
slot (a max-heap layout for the Boolean comparator `le`). -/
def IsHeap {α : Type} (le : α → α → Bool) (l : List α) : Prop :=
  ∀ j x p, 0 < j → l[j]? = some x → l[(j - 1) / 2]? = some p → le x p = true

/-- Heap shape except that the element at `pos` may exceed its parent, while
the children of `pos` are still bounded by the parent of `pos` (the sift-up
invariant). -/
def AlmostHeap {α : Type} (le : α → α → Bool) (l : List α) (pos : Nat) : Prop :=
  (∀ j x p, 0 < j → j ≠ pos → l[j]? = some x → l[(j - 1) / 2]? = some p → le x p = true) ∧
  (∀ j x g, 0 < pos → 0 < j → (j - 1) / 2 = pos → l[j]? = some x →
    l[(pos - 1) / 2]? = some g → le x g = true)

/-- Heap shape except around the hole at `pos`: the slot at `pos` and the
children of `pos` are unconstrained, but the children of `pos` are still
bounded by the parent of `pos` (the sift-down walking invariant). -/
def WalkInv {α : Type} (le : α → α → Bool) (l : List α) (pos : Nat) : Prop :=
  (∀ j x p, 0 < j → j ≠ pos → (j - 1) / 2 ≠ pos → l[j]? = some x →
    l[(j - 1) / 2]? = some p → le x p = true) ∧
  (∀ j x g, 0 < pos → 0 < j → (j - 1) / 2 = pos → l[j]? = some x →
    l[(pos - 1) / 2]? = some g → le x g = true)

/-- A well-formed live cursor: its source cannot fault, and its buffered head
followed by its remaining lines is non-decreasing. -/
def GoodEntry (e : Entry) : Prop :=
  e.reader.fault = none ∧ List.Chain' strLe (e.first_line :: linesOf e.reader.content)

/-- All lines a merger state still has to deliver: for each cursor, its
buffered head followed by the lines remaining in its source. -/
def allLines (h : Heap) : List String :=
  (h.heap.map (fun e => e.first_line :: linesOf e.reader.content)).flatten

/-- The full invariant used for the sorted-merge theorem: every cursor is
well formed, the cursor labels are pairwise distinct, and the backing list
satisfies the binary-heap ordering for the program's comparator. -/
def MergeInv (h : Heap) : Prop :=
  (∀ e ∈ h.heap, GoodEntry e) ∧ (h.heap.map Entry.filename).Nodup ∧ IsHeap Entry.le h.heap

example : linesOf "a\nc".data = ["a", "c"] := by decide
example : linesOf "foo\nbar".data = ["foo", "bar"] := by decide
example : linesOf "a \n\nb".data = ["a", "", "b"] := by decide
example : trimEnd "a \n" = "a" := by decide
example : drain (addAll Heap.new [("file1", ⟨"a\nc".data, none⟩), ("file2", ⟨"b\nd".data, none⟩)]) =
    [.ok "a", .ok "b", .ok "c", .ok "d"] := by decide
example : drain (addAll Heap.new [("file1", ⟨"foo\nbar".data, none⟩)]) =
    [.error (.outOfOrder "file1"), .ok "bar"] := by decide
example : drain (addAll Heap.new [("f", ⟨"b".data, none⟩), ("f", ⟨"a".data, none⟩)]) =
    [.ok "b", .ok "a"] := by decide

/-! ### Character and string comparison lemmas -/

theorem charCmp_eq_lt {a b : Char} : charCmp a b = .lt ↔ a.toNat < b.toNat := by
  unfold charCmp; split <;> rename_i h₁
  · simp [h₁]
  · split <;> rename_i h₂ <;> simp <;> omega

theorem charCmp_eq_gt {a b : Char} : charCmp a b = .gt ↔ b.toNat < a.toNat := by
  unfold charCmp; split <;> rename_i h₁
  · simp; omega
  · split <;> rename_i h₂ <;> simp <;> omega

theorem charCmp_eq_eq {a b : Char} : charCmp a b = .eq ↔ a = b := by
  unfold charCmp; split <;> rename_i h₁
  · simp; intro h; rw [h] at h₁; omega
  · split <;> rename_i h₂
    · simp; intro h; rw [h] at h₂; omega
    · have hn : a.toNat = b.toNat := by omega
      simp [Char.eq_of_val_eq (UInt32.toNat.inj hn)]

theorem listCmp_refl (l : List Char) : listCmp l l = .eq := by
  induction l with
  | nil => rfl
  | cons a l ih => simp [listCmp, charCmp_eq_eq.mpr rfl, ih]

theorem listCmp_swap (l₁ l₂ : List Char) : (listCmp l₁ l₂).swap = listCmp l₂ l₁ := by
  induction l₁ generalizing l₂ with
  | nil => cases l₂ <;> rfl
  | cons a t₁ ih =>
    cases l₂ with
    | nil => rfl
    | cons b t₂ =>
      simp only [listCmp]
      cases h : charCmp a b with
      | lt =>
        have hba : charCmp b a = .gt := charCmp_eq_gt.mpr (charCmp_eq_lt.mp h)
        simp only [hba]; rfl
      | eq =>
        have hba : charCmp b a = .eq := charCmp_eq_eq.mpr (charCmp_eq_eq.mp h).symm
        simp only [hba, ih]
      | gt =>
        have hba : charCmp b a = .lt := charCmp_eq_lt.mpr (charCmp_eq_gt.mp h)
        simp only [hba]; rfl

theorem listCmp_eq {l₁ l₂ : List Char} (h : listCmp l₁ l₂ = .eq) : l₁ = l₂ := by
  induction l₁ generalizing l₂ with
  | nil => cases l₂ with
    | nil => rfl
    | cons b t => simp [listCmp] at h
  | cons a t₁ ih =>
    cases l₂ with
    | nil => simp [listCmp] at h
    | cons b t₂ =>
      simp only [listCmp] at h
      rcases hc : charCmp a b with hc' | hc' | hc' <;> rw [hc] at h
      · exact absurd h (by simp)
      · rw [charCmp_eq_eq.mp hc, ih h]
      · exact absurd h (by simp)

theorem listCmp_le_trans {l₁ l₂ l₃ : List Char} (h₁ : listCmp l₁ l₂ ≠ .gt)
    (h₂ : listCmp l₂ l₃ ≠ .gt) : listCmp l₁ l₃ ≠ .gt := by
  induction l₁ generalizing l₂ l₃ with
  | nil => cases l₃ <;> simp [listCmp]
  | cons a t₁ ih =>
    cases l₂ with
    | nil => simp [listCmp] at h₁
    | cons b t₂ =>
      cases l₃ with
      | nil => simp [listCmp] at h₂
      | cons c t₃ =>
        simp only [listCmp] at h₁ h₂ ⊢
        cases hab : charCmp a b with
        | gt => simp only [hab] at h₁; exact absurd rfl h₁
        | lt =>
          cases hbc : charCmp b c with
          | gt => simp only [hbc] at h₂; exact absurd rfl h₂
          | lt =>
            have hac : charCmp a c = .lt :=
              charCmp_eq_lt.mpr (Nat.lt_trans (charCmp_eq_lt.mp hab) (charCmp_eq_lt.mp hbc))
            simp [hac]
          | eq =>
            have hb := charCmp_eq_eq.mp hbc
            subst hb
            simp [hab]
        | eq =>
          have hb := charCmp_eq_eq.mp hab
          subst hb
          simp only [hab] at h₁
          cases hbc : charCmp a c with
          | gt => simp only [hbc] at h₂; exact absurd rfl h₂
          | lt => simp [hbc]
          | eq =>
            simp only [hbc] at h₂
            simp only [hbc]
            exact ih h₁ h₂

theorem strCmp_refl (a : String) : strCmp a a = .eq := listCmp_refl a.data

theorem strCmp_swap (a b : String) : (strCmp a b).swap = strCmp b a := listCmp_swap a.data b.data

theorem strCmp_eq {a b : String} (h : strCmp a b = .eq) : a = b :=
  String.ext (listCmp_eq h)

theorem strLe_refl (a : String) : strLe a a := by simp [strLe, strCmp_refl]

theorem strLe_trans {a b c : String} (h₁ : strLe a b) (h₂ : strLe b c) : strLe a c :=
  listCmp_le_trans h₁ h₂

theorem strLe_total (a b : String) : strLe a b ∨ strLe b a := by
  by_cases h : strCmp a b = .gt
  · right
    have := strCmp_swap a b
    rw [h] at this
    simp only [strLe, ← this]
    simp [Ordering.swap]
  · exact Or.inl h

theorem strLe_of_not_lt {a b : String} (h : strCmp a b ≠ .lt) : strLe b a := by
  have hs := strCmp_swap a b
  rcases hab : strCmp a b with h' | h' | h' <;> rw [hab] at hs <;> simp only [strLe, ← hs]
  · exact absurd hab h
  · simp [Ordering.swap]
  · simp [Ordering.swap]

theorem strLt_of_not_le {a b : String} (h : ¬ strLe a b) : strCmp b a = .lt := by
  simp only [strLe, not_not] at h
  have hs := strCmp_swap a b
  rw [h] at hs
  exact hs.symm

theorem not_lt_of_strLe {a b : String} (h : strLe a b) : strCmp b a ≠ .lt := by
  intro hlt
  have hs := strCmp_swap b a
  rw [hlt] at hs
  exact h hs.symm

/-! ### trimEnd lemmas -/

theorem trimEnd_is_suffix_strip (s : String) :
    ∃ ws, s.data = (trimEnd s).data ++ ws ∧ ∀ c ∈ ws, isRustWhitespace c = true := by
  refine ⟨(s.data.reverse.takeWhile isRustWhitespace).reverse, ?_, ?_⟩
  · have h := List.takeWhile_append_dropWhile (p := isRustWhitespace) (l := s.data.reverse)
    calc s.data = s.data.reverse.reverse := (List.reverse_reverse _).symm
    _ = (s.data.reverse.takeWhile isRustWhitespace ++
          s.data.reverse.dropWhile isRustWhitespace).reverse := by rw [h]
    _ = (s.data.reverse.dropWhile isRustWhitespace).reverse ++
          (s.data.reverse.takeWhile isRustWhitespace).reverse := List.reverse_append ..
  · intro c hc
    rw [List.mem_reverse] at hc
    exact List.mem_takeWhile_imp hc

theorem trimEnd_last_not_ws (s : String) (c : Char)
    (h : (trimEnd s).data.getLast? = some c) : isRustWhitespace c = false := by
  have hh := List.head?_dropWhile_not isRustWhitespace s.data.reverse
  have h2 : (s.data.reverse.dropWhile isRustWhitespace).head? = some c := by
    rw [← List.getLast?_reverse]
    exact h
  rw [h2] at hh
  exact hh

theorem trimEnd_append_newline (l : List Char) : trimEnd ⟨l ++ ['\n']⟩ = trimEnd ⟨l⟩ := by
  have h : isRustWhitespace '\n' = true := by decide
  simp [trimEnd, List.reverse_append, List.dropWhile_cons, h]

/-! ### Generic list helper lemmas -/

theorem dropWhile_length_le {α : Type} (p : α → Bool) (l : List α) :
    (l.dropWhile p).length ≤ l.length := by
  induction l with
  | nil => simp
  | cons a t ih => rw [List.dropWhile_cons]; split <;> simp <;> omega

theorem takeWhile_length_le {α : Type} (p : α → Bool) (l : List α) :
    (l.takeWhile p).length ≤ l.length := by
  induction l with
  | nil => simp
  | cons a t ih => rw [List.takeWhile_cons]; split <;> simp <;> omega

theorem dropWhile_drop_one_length_lt {α : Type} (p : α → Bool) (l : List α) (hne : l ≠ []) :
    ((l.dropWhile p).drop 1).length < l.length := by
  have h1 := dropWhile_length_le p l
  rw [List.length_drop]
  cases l with
  | nil => exact absurd rfl hne
  | cons a t => simp at h1 ⊢; omega

/-! ### linesOf lemmas -/

theorem linesOfGo_nil (f : Nat) : linesOfGo f [] = [] := by
  cases f <;> rfl

theorem linesOfGo_fuel (c : List Char) (f₁ f₂ : Nat) (h₁ : c.length ≤ f₁) (h₂ : c.length ≤ f₂) :
    linesOfGo f₁ c = linesOfGo f₂ c := by
  induction f₁ generalizing c f₂ with
  | zero =>
    have hc : c = [] := List.eq_nil_of_length_eq_zero (Nat.le_zero.mp h₁)
    subst hc
    cases f₂ <;> rfl
  | succ f ih =>
    cases c with
    | nil => cases f₂ <;> rfl
    | cons a t =>
      cases f₂ with
      | zero => simp at h₂
      | succ g =>
        simp only [linesOfGo]
        congr 1
        have hlt := dropWhile_drop_one_length_lt (fun ch => decide (ch ≠ '\n')) (a :: t)
          (by simp)
        apply ih
        · simp at h₁ hlt ⊢; omega
        · simp at h₂ hlt ⊢; omega

/-! ### readLine lemmas -/

theorem readLine_fault_free {s : Source} (hf : s.fault = none) :
    ∃ out, readLine s = .ok out := by
  unfold readLine
  split
  · rw [hf]
    exact ⟨_, rfl⟩
  · exact ⟨_, rfl⟩

theorem readLine_empty_content {s : Source} (hc : s.content = []) (hf : s.fault = none) :
    readLine s = .ok ("", 0, ⟨[], none⟩) := by
  unfold readLine
  rw [hc, hf]
  rfl

theorem readLine_ok_fault {s : Source} {line n s2} (h : readLine s = .ok (line, n, s2))
    (hf : s.fault = none) : s2.fault = none := by
  unfold readLine at h
  split at h
  · rw [hf] at h
    cases h
    rfl
  · rw [hf] at h
    cases h
    rfl

theorem readLine_ok_shrink {s : Source} {line n s2} (h : readLine s = .ok (line, n, s2))
    (hn : 0 < n) : s2.content.length < s.content.length := by
  unfold readLine at h
  split at h
  case _ heq =>
    split at h
    · cases h
    · cases h
      have hc := List.takeWhile_append_dropWhile
        (p := fun c => decide (c ≠ '\n')) (l := s.content)
      rw [heq, List.append_nil] at hc
      rw [← hc]
      simpa using hn
  case _ x rest heq =>
    cases h
    have hc := List.takeWhile_append_dropWhile
      (p := fun c => decide (c ≠ '\n')) (l := s.content)
    rw [heq] at hc
    have := congrArg List.length hc
    simp at this
    simp
    omega

theorem readLine_to_linesOf {s : Source} (hf : s.fault = none) (hne : s.content ≠ []) :
    ∃ line n rest, readLine s = .ok (line, n, ⟨rest, none⟩) ∧ 0 < n ∧
      rest.length < s.content.length ∧ linesOf s.content = trimEnd line :: linesOf rest := by
  cases hd : s.content.dropWhile (fun c => decide (c ≠ '\n')) with
  | nil =>
    refine ⟨⟨s.content.takeWhile (fun c => decide (c ≠ '\n'))⟩,
      (s.content.takeWhile (fun c => decide (c ≠ '\n'))).length, [], ?_, ?_, ?_, ?_⟩
    · unfold readLine
      rw [hd, hf]
    · have hc := List.takeWhile_append_dropWhile
        (p := fun c => decide (c ≠ '\n')) (l := s.content)
      rw [hd, List.append_nil] at hc
      rw [hc]
      cases hcc : s.content with
      | nil => exact absurd hcc hne
      | cons a t => simp
    · cases hcc : s.content with
      | nil => exact absurd hcc hne
      | cons a t => simp
    · cases hcc : s.content with
      | nil => exact absurd hcc hne
      | cons a t =>
        rw [hcc] at hd
        simp only [linesOf, linesOfGo, List.length_cons, hd, List.drop_nil, linesOfGo_nil]
  | cons x rest =>
    refine ⟨⟨s.content.takeWhile (fun c => decide (c ≠ '\n')) ++ ['\n']⟩,
      (s.content.takeWhile (fun c => decide (c ≠ '\n'))).length + 1, rest, ?_, ?_, ?_, ?_⟩
    · unfold readLine
      rw [hd, hf]
    · omega
    · have hc := List.takeWhile_append_dropWhile
        (p := fun c => decide (c ≠ '\n')) (l := s.content)
      rw [hd] at hc
      have := congrArg List.length hc
      simp at this
      omega
    · have hc := List.takeWhile_append_dropWhile
        (p := fun c => decide (c ≠ '\n')) (l := s.content)
      rw [hd] at hc
      cases hcc : s.content with
      | nil => exact absurd hcc hne
      | cons a t =>
        rw [hcc] at hd hc
        simp only [linesOf, linesOfGo, List.length_cons, hd, List.drop_succ_cons,
          List.drop_zero]
        congr 1
        · rw [trimEnd_append_newline]
        · have hlen : rest.length ≤ t.length := by
            have := congrArg List.length hc
            simp at this
            omega
          exact linesOfGo_fuel rest t.length rest.length hlen (Nat.le_refl _)

/-! ### swapAt lemmas -/

theorem swapAt_length {α : Type} (l : List α) (i j : Nat) :
    (swapAt l i j).length = l.length := by
  unfold swapAt
  split <;> simp

theorem cons_set_perm {α : Type} {l : List α} {k : Nat} {b : α} (h : l[k]? = some b) (a : α) :
    List.Perm (b :: l.set k a) (a :: l) := by
  induction l generalizing k with
  | nil => simp at h
  | cons x t ih =>
    cases k with
    | zero =>
      simp at h
      subst h
      simpa [List.set] using List.Perm.swap a x t
    | succ k =>
      simp only [List.getElem?_cons_succ] at h
      simp only [List.set_cons_succ]
      exact ((List.Perm.swap x b (t.set k a)).trans ((ih h).cons x)).trans
        (List.Perm.swap a x t)

theorem set_self_of_getElem? {α : Type} {l : List α} {i : Nat} {a : α}
    (h : l[i]? = some a) : l.set i a = l := by
  induction l generalizing i with
  | nil => simp at h
  | cons x t ih =>
    cases i with
    | zero => simp at h; simp [h]
    | succ i =>
      simp only [List.getElem?_cons_succ] at h
      simp [List.set_cons_succ, ih h]

theorem swapAt_perm {α : Type} (l : List α) (i j : Nat) : List.Perm (swapAt l i j) l := by
  unfold swapAt
  split
  case h_1 a b hi hj =>
    by_cases hij : i = j
    · subst hij
      rw [List.set_set]
      rw [hi] at hj
      cases hj
      rw [set_self_of_getElem? hi]
    · have hbj : (l.set i b)[j]? = some b := by
        rw [List.getElem?_set_ne hij]
        exact hj
      have h1 := cons_set_perm hbj a
      have h2 := cons_set_perm hi b
      exact (h1.trans h2).cons_inv
  case h_2 => exact List.Perm.refl l

theorem swapAt_getElem? {α : Type} {l : List α} {i j : Nat} (hi : i < l.length)
    (hj : j < l.length) (k : Nat) :
    (swapAt l i j)[k]? = if k = j then l[i]? else if k = i then l[j]? else l[k]? := by
  unfold swapAt
  rw [List.getElem?_eq_getElem hi, List.getElem?_eq_getElem hj]
  by_cases hkj : k = j
  · simp [hkj, List.getElem?_set, List.length_set, hi, hj]
  · have h1 : ¬ (j = k) := fun he => hkj he.symm
    by_cases hki : k = i
    · have hji : ¬ (j = i) := fun he => hkj (hki.trans he.symm)
      have hij : ¬ (i = j) := fun he => hji he.symm
      simp [hki, List.getElem?_set, hji, hij, hi, hj]
    · have h2 : ¬ (i = k) := fun he => hki he.symm
      simp [List.getElem?_set, h1, h2, hkj, hki]

/-! ### Binary heap: permutation and length lemmas (comparator-independent) -/

section BinHeapPerm

variable {α : Type} (le : α → α → Bool)

theorem sift_up_go_length (fuel : Nat) (l : List α) (start pos : Nat) :
    (sift_up_go le fuel l start pos).length = l.length := by
  induction fuel generalizing l pos with
  | zero => rfl
  | succ f ih =>
    simp only [sift_up_go]
    split
    · rfl
    · split
      · split
        · rfl
        · rw [ih, swapAt_length]
      · rfl

theorem sift_up_go_perm (fuel : Nat) (l : List α) (start pos : Nat) :
    List.Perm (sift_up_go le fuel l start pos) l := by
  induction fuel generalizing l pos with
  | zero => exact List.Perm.refl l
  | succ f ih =>
    simp only [sift_up_go]
    split
    · exact List.Perm.refl l
    · split
      · split
        · exact List.Perm.refl l
        · exact (ih _ _).trans (swapAt_perm l _ _)
      · exact List.Perm.refl l

theorem sift_down_go_length (fuel : Nat) (l : List α) (pos : Nat) :
    (sift_down_go le fuel l pos).1.length = l.length := by
  induction fuel generalizing l pos with
  | zero => rfl
  | succ f ih =>
    simp only [sift_down_go]
    split
    · split
      · split
        · rw [ih, swapAt_length]
        · rw [ih, swapAt_length]
      · rfl
    · split
      · simp [swapAt_length]
      · rfl

theorem sift_down_go_perm (fuel : Nat) (l : List α) (pos : Nat) :
    List.Perm (sift_down_go le fuel l pos).1 l := by
  induction fuel generalizing l pos with
  | zero => exact List.Perm.refl l
  | succ f ih =>
    simp only [sift_down_go]
    split
    · split
      · split
        · exact (ih _ _).trans (swapAt_perm l _ _)
        · exact (ih _ _).trans (swapAt_perm l _ _)
      · exact List.Perm.refl l
    · split
      · simpa using swapAt_perm l pos (2 * pos + 1)
      · exact List.Perm.refl l

theorem sift_up_perm (l : List α) (start pos : Nat) :
    List.Perm (sift_up le l start pos) l :=
  sift_up_go_perm le pos l start pos

theorem sift_down_to_bottom_perm (l : List α) (pos : Nat) :
    List.Perm (sift_down_to_bottom le l pos) l := by
  unfold sift_down_to_bottom
  exact (sift_up_perm le _ _ _).trans (sift_down_go_perm le l.length l pos)

theorem heapPush_perm (l : List α) (x : α) :
    List.Perm (heapPush le l x) (x :: l) := by
  unfold heapPush
  exact (sift_up_perm le _ _ _).trans (List.perm_append_singleton x l)

theorem heapPop_none (l : List α) : heapPop le l = none ↔ l = [] := by
  unfold heapPop
  cases hl : l.getLast? with
  | none => simp [List.getLast?_eq_none_iff.mp hl]
  | some last =>
    have hne : l ≠ [] := by
      intro h
      rw [h] at hl
      cases hl
    cases hd : l.dropLast <;> simp [hne]

theorem heapPop_perm {l : List α} {x : α} {l2 : List α} (h : heapPop le l = some (x, l2)) :
    List.Perm (x :: l2) l := by
  unfold heapPop at h
  cases hl : l.getLast? with
  | none => rw [hl] at h; cases h
  | some last =>
    rw [hl] at h
    have hne : l ≠ [] := by
      intro hh
      rw [hh] at hl
      cases hl
    have hsplit : l.dropLast ++ [last] = l := by
      have h1 := List.dropLast_append_getLast hne
      have h3 := List.getLast?_eq_getLast l hne
      rw [hl] at h3
      have h2 : last = l.getLast hne := Option.some.inj h3
      rw [← h2] at h1
      exact h1
    cases hd : l.dropLast with
    | nil =>
      rw [hd] at h hsplit
      injection h with h'
      injection h' with hx hl2
      subst hx
      subst hl2
      rw [List.nil_append] at hsplit
      rw [← hsplit]
    | cons r0 rtl =>
      rw [hd] at h hsplit
      injection h with h'
      injection h' with hx hl2
      subst hx
      subst hl2
      have hp := sift_down_to_bottom_perm le (last :: rtl) 0
      have hq := (hp.trans (List.perm_append_singleton last rtl).symm).cons r0
      rw [← hsplit]
      simpa using hq

end BinHeapPerm

/-! ### Binary heap: order correctness under a comparator lawful on `S` -/

section BinHeapOrder

variable {α : Type} {le : α → α → Bool} {S : α → Prop}

theorem le_swap_of_false (htot : ∀ a b, S a → S b → (le a b || le b a) = true)
    {a b : α} (ha : S a) (hb : S b) (h : le a b = false) : le b a = true := by
  have h2 := htot a b ha hb
  rw [h] at h2
  simpa using h2

theorem le_refl_of_S (htot : ∀ a b, S a → S b → (le a b || le b a) = true)
    {a : α} (ha : S a) : le a a = true := by
  simpa using htot a a ha ha

theorem sift_up_go_isHeap
    (htot : ∀ a b, S a → S b → (le a b || le b a) = true)
    (htrans : ∀ a b c, S a → S b → S c → le a b = true → le b c = true → le a c = true)
    (fuel : Nat) :
    ∀ (l : List α) (pos : Nat), pos ≤ fuel → pos < l.length →
      (∀ x ∈ l, S x) → AlmostHeap le l pos →
      IsHeap le (sift_up_go le fuel l 0 pos) := by
  induction fuel with
  | zero =>
    intro l pos hf hpos hS hinv
    have h0 : pos = 0 := Nat.le_zero.mp hf
    subst h0
    intro j x p hj hx hp
    exact hinv.1 j x p hj (by omega) hx hp
  | succ f ih =>
    intro l pos hf hpos hS hinv
    by_cases h0 : pos = 0
    · subst h0
      simp only [sift_up_go, if_pos (Nat.le_refl 0)]
      intro j x p hj hx hp
      exact hinv.1 j x p hj (by omega) hx hp
    · have hnle : ¬ (pos ≤ 0) := by omega
      have hppos : (pos - 1) / 2 < l.length := by omega
      obtain ⟨x, hx⟩ : ∃ v, l[pos]? = some v := ⟨_, List.getElem?_eq_getElem hpos⟩
      obtain ⟨p, hp⟩ : ∃ v, l[(pos - 1) / 2]? = some v :=
        ⟨_, List.getElem?_eq_getElem hppos⟩
      have hxS : S x := hS x (List.getElem?_mem hx)
      have hpS : S p := hS p (List.getElem?_mem hp)
      simp only [sift_up_go, if_neg hnle, hx, hp]
      by_cases hle : le x p = true
      · rw [if_pos hle]
        intro j y q hj hy hq
        by_cases hjpos : j = pos
        · subst hjpos
          rw [hy] at hx
          rw [hq] at hp
          cases Option.some.inj hx
          cases Option.some.inj hp
          exact hle
        · exact hinv.1 j y q hj hjpos hy hq
      · rw [if_neg hle]
        have hlef : le x p = false := by
          revert hle
          cases le x p <;> simp
        have hpx : le p x = true := le_swap_of_false htot hxS hpS hlef
        have hget := swapAt_getElem? hppos hpos
        have hperm := swapAt_perm l ((pos - 1) / 2) pos
        apply ih (swapAt l ((pos - 1) / 2) pos) ((pos - 1) / 2)
        · omega
        · rw [swapAt_length]; omega
        · intro y hy
          exact hS y (hperm.subset hy)
        · constructor
          · -- clause 1 of AlmostHeap at the parent position
            intro j y q hj hjP hy2 hq2
            rw [hget j] at hy2
            rw [hget ((j - 1) / 2)] at hq2
            by_cases hjpos : j = pos
            · -- the old parent now sits at pos; its parent slot now holds x
              subst hjpos
              rw [if_pos rfl] at hy2
              have hqpos : ¬ ((j - 1) / 2 = j) := by omega
              rw [if_neg hqpos, if_pos rfl] at hq2
              rw [hp] at hy2
              rw [hx] at hq2
              cases Option.some.inj hy2
              cases Option.some.inj hq2
              exact hpx
            · have hyv : l[j]? = some y := by
                rw [if_neg hjpos, if_neg hjP] at hy2
                exact hy2
              have hyS : S y := hS y (List.getElem?_mem hyv)
              by_cases hpjpos : (j - 1) / 2 = pos
              · -- j is a child of the old violator position
                rw [if_pos hpjpos, hp] at hq2
                cases Option.some.inj hq2
                exact hinv.2 j y p (by omega) hj hpjpos hyv hp
              · by_cases hpjP : (j - 1) / 2 = (pos - 1) / 2
                · -- j is the sibling: its new parent value is x
                  rw [if_neg hpjpos, if_pos hpjP, hx] at hq2
                  cases Option.some.inj hq2
                  have h1 : le y p = true :=
                    hinv.1 j y p hj hjpos hyv (by rw [hpjP]; exact hp)
                  exact htrans y p x hyS hpS hxS h1 hpx
                · rw [if_neg hpjpos, if_neg hpjP] at hq2
                  exact hinv.1 j y q hj hjpos hyv hq2
          · -- clause 2: children of the new position bounded by its parent
            intro j y g hPpos hj hpj hy2 hg2
            rw [hget j] at hy2
            rw [hget (((pos - 1) / 2 - 1) / 2)] at hg2
            have hPP1 : ¬ (((pos - 1) / 2 - 1) / 2 = pos) := by omega
            have hPP2 : ¬ (((pos - 1) / 2 - 1) / 2 = (pos - 1) / 2) := by omega
            rw [if_neg hPP1, if_neg hPP2] at hg2
            have hgS : S g := hS g (List.getElem?_mem hg2)
            by_cases hjpos : j = pos
            · rw [if_pos hjpos, hp] at hy2
              cases Option.some.inj hy2
              exact hinv.1 ((pos - 1) / 2) p g (by omega) (by omega) hp hg2
            · have hjP : ¬ (j = (pos - 1) / 2) := by omega
              rw [if_neg hjpos, if_neg hjP] at hy2
              have hyS : S y := hS y (List.getElem?_mem hy2)
              have h1 : le y p = true := hinv.1 j y p hj hjpos hy2 (by rw [hpj]; exact hp)
              have h2 : le p g = true :=
                hinv.1 ((pos - 1) / 2) p g (by omega) (by omega) hp hg2
              exact htrans y p g hyS hpS hgS h1 h2

theorem walk_inv_swap
    (htot : ∀ a b, S a → S b → (le a b || le b a) = true)
    {l : List α} {pos c : Nat} (hpos : pos < l.length) (hc : c < l.length)
    (hcchild : (c - 1) / 2 = pos) (hcgt : pos < c)
    (hS : ∀ x ∈ l, S x) (hinv : WalkInv le l pos)
    (hmax : ∀ j v, (j - 1) / 2 = pos → 0 < j → l[j]? = some v →
      ∀ w, l[c]? = some w → le v w = true) :
    WalkInv le (swapAt l pos c) c := by
  obtain ⟨w, hw⟩ : ∃ v, l[c]? = some v := ⟨_, List.getElem?_eq_getElem hc⟩
  have hget := swapAt_getElem? hpos hc
  constructor
  · intro j y q hj hjc hpjc hy hq
    rw [hget j] at hy
    rw [hget ((j - 1) / 2)] at hq
    by_cases hjpos : j = pos
    · rw [if_neg hjc, if_pos hjpos, hw] at hy
      cases Option.some.inj hy
      have hq1 : ¬ ((j - 1) / 2 = c) := by omega
      have hq2 : ¬ ((j - 1) / 2 = pos) := by omega
      rw [if_neg hq1, if_neg hq2] at hq
      refine hinv.2 c w q (by omega) (by omega) hcchild hw ?_
      rw [hjpos] at hq
      exact hq
    · by_cases hpjpos : (j - 1) / 2 = pos
      · rw [if_neg hjc, if_neg hjpos] at hy
        rw [if_neg hpjc, if_pos hpjpos, hw] at hq
        cases Option.some.inj hq
        exact hmax j y hpjpos hj hy w hw
      · rw [if_neg hjc, if_neg hjpos] at hy
        rw [if_neg hpjc, if_neg hpjpos] at hq
        exact hinv.1 j y q hj hjpos hpjpos hy hq
  · intro j y g h0c hj hpj hy hg
    rw [hget j] at hy
    rw [hget ((c - 1) / 2)] at hg
    have hg1 : ¬ ((c - 1) / 2 = c) := by omega
    rw [if_neg hg1, if_pos hcchild, hw] at hg
    cases Option.some.inj hg
    have hy1 : ¬ (j = c) := by omega
    have hy2 : ¬ (j = pos) := by omega
    rw [if_neg hy1, if_neg hy2] at hy
    refine hinv.1 j y w hj hy2 (by omega) hy ?_
    rw [hpj]
    exact hw

theorem sift_down_go_spec
    (htot : ∀ a b, S a → S b → (le a b || le b a) = true)
    (fuel : Nat) :
    ∀ (l : List α) (pos : Nat), l.length - pos ≤ fuel → pos < l.length →
      (∀ x ∈ l, S x) → WalkInv le l pos →
      AlmostHeap le (sift_down_go le fuel l pos).1 (sift_down_go le fuel l pos).2 ∧
      (sift_down_go le fuel l pos).2 < (sift_down_go le fuel l pos).1.length := by
  induction fuel with
  | zero =>
    intro l pos hf hpos hS hinv
    omega
  | succ f ih =>
    intro l pos hf hpos hS hinv
    by_cases hc2 : 2 * pos + 2 < l.length
    · have hc1 : 2 * pos + 1 < l.length := by omega
      obtain ⟨a, ha⟩ : ∃ v, l[2 * pos + 1]? = some v := ⟨_, List.getElem?_eq_getElem hc1⟩
      obtain ⟨b, hb⟩ : ∃ v, l[2 * pos + 2]? = some v :=
        ⟨_, List.getElem?_eq_getElem (by omega)⟩
      have haS : S a := hS a (List.getElem?_mem ha)
      have hbS : S b := hS b (List.getElem?_mem hb)
      simp only [sift_down_go, if_pos hc2, ha, hb]
      by_cases hab : le a b = true
      · rw [if_pos hab]
        apply ih (swapAt l pos (2 * pos + 2)) (2 * pos + 2)
        · rw [swapAt_length]; omega
        · rw [swapAt_length]; omega
        · intro y hy
          exact hS y ((swapAt_perm l pos (2 * pos + 2)).subset hy)
        · apply walk_inv_swap htot hpos (by omega) (by omega) (by omega) hS hinv
          intro j v hpj hj0 hv w hw
          rw [hb] at hw
          cases Option.some.inj hw
          by_cases hj1 : j = 2 * pos + 1
          · rw [hj1, ha] at hv
            cases Option.some.inj hv
            exact hab
          · have hj2 : j = 2 * pos + 2 := by omega
            rw [hj2, hb] at hv
            cases Option.some.inj hv
            exact le_refl_of_S htot hbS
      · have hba : le b a = true := by
          have h2 := htot a b haS hbS
          revert h2
          cases hx : le a b
          · simp
          · exact absurd hx hab
        rw [if_neg hab]
        apply ih (swapAt l pos (2 * pos + 1)) (2 * pos + 1)
        · rw [swapAt_length]; omega
        · rw [swapAt_length]; omega
        · intro y hy
          exact hS y ((swapAt_perm l pos (2 * pos + 1)).subset hy)
        · apply walk_inv_swap htot hpos (by omega) (by omega) (by omega) hS hinv
          intro j v hpj hj0 hv w hw
          rw [ha] at hw
          cases Option.some.inj hw
          by_cases hj1 : j = 2 * pos + 1
          · rw [hj1, ha] at hv
            cases Option.some.inj hv
            exact le_refl_of_S htot haS
          · have hj2 : j = 2 * pos + 2 := by omega
            rw [hj2, hb] at hv
            cases Option.some.inj hv
            exact hba
    · by_cases heq : 2 * pos + 2 = l.length
      · -- exactly one child: forced swap to the bottom slot
        have hc1 : 2 * pos + 1 < l.length := by omega
        obtain ⟨a, ha⟩ : ∃ v, l[2 * pos + 1]? = some v := ⟨_, List.getElem?_eq_getElem hc1⟩
        simp only [sift_down_go, if_neg hc2, if_pos heq]
        have hget := swapAt_getElem? hpos hc1
        constructor
        · constructor
          · intro j y q hj hjc hy hq
            have hjlen : j < l.length := by
              obtain ⟨hlt, _⟩ := List.getElem?_eq_some_iff.mp hy
              rw [swapAt_length] at hlt
              exact hlt
            rw [hget j] at hy
            rw [hget ((j - 1) / 2)] at hq
            by_cases hjpos : j = pos
            · rw [if_neg hjc, if_pos hjpos, ha] at hy
              cases Option.some.inj hy
              have hq1 : ¬ ((j - 1) / 2 = 2 * pos + 1) := by omega
              have hq2 : ¬ ((j - 1) / 2 = pos) := by omega
              rw [if_neg hq1, if_neg hq2] at hq
              refine hinv.2 (2 * pos + 1) a q (by omega) (by omega) (by omega) ha ?_
              rw [hjpos] at hq
              exact hq
            · have hpjpos : ¬ ((j - 1) / 2 = pos) := by omega
              have hpjc : ¬ ((j - 1) / 2 = 2 * pos + 1) := by omega
              rw [if_neg hjc, if_neg hjpos] at hy
              rw [if_neg hpjc, if_neg hpjpos] at hq
              exact hinv.1 j y q hj hjpos hpjpos hy hq
          · intro j y g h0c hj hpj hy hg
            have hjlen : j < l.length := by
              obtain ⟨hlt, _⟩ := List.getElem?_eq_some_iff.mp hy
              rw [swapAt_length] at hlt
              exact hlt
            omega
        · rw [swapAt_length]
          omega
      · -- no children: the walk stops here
        simp only [sift_down_go, if_neg hc2, if_neg heq]
        refine ⟨⟨?_, hinv.2⟩, hpos⟩
        intro j y q hj hjpos hy hq
        obtain ⟨hjlen, _⟩ := List.getElem?_eq_some_iff.mp hy
        exact hinv.1 j y q hj hjpos (by omega) hy hq

end BinHeapOrder

section BinHeapMain

variable {α : Type} {le : α → α → Bool} {S : α → Prop}

theorem isHeap_root_max
    (htot : ∀ a b, S a → S b → (le a b || le b a) = true)
    (htrans : ∀ a b c, S a → S b → S c → le a b = true → le b c = true → le a c = true)
    {l : List α} (hheap : IsHeap le l) (hS : ∀ x ∈ l, S x) {r : α} (hr : l[0]? = some r) :
    ∀ (j : Nat) (y : α), l[j]? = some y → le y r = true := by
  intro j
  induction j using Nat.strong_induction_on with
  | _ j ih =>
    intro y hy
    cases Nat.eq_zero_or_pos j with
    | inl h0 =>
      subst h0
      rw [hr] at hy
      cases Option.some.inj hy
      exact le_refl_of_S htot (hS _ (List.getElem?_mem hr))
    | inr hpos =>
      obtain ⟨hjlen, _⟩ := List.getElem?_eq_some_iff.mp hy
      have hplen : (j - 1) / 2 < l.length := by omega
      obtain ⟨p, hp⟩ : ∃ v, l[(j - 1) / 2]? = some v := ⟨_, List.getElem?_eq_getElem hplen⟩
      have h1 : le y p = true := hheap j y p hpos hy hp
      have h2 : le p r = true := ih ((j - 1) / 2) (by omega) p hp
      exact htrans y p r (hS y (List.getElem?_mem hy)) (hS p (List.getElem?_mem hp))
        (hS r (List.getElem?_mem hr)) h1 h2

theorem heapPush_isHeap
    (htot : ∀ a b, S a → S b → (le a b || le b a) = true)
    (htrans : ∀ a b c, S a → S b → S c → le a b = true → le b c = true → le a c = true)
    {l : List α} {x : α} (hS : ∀ y ∈ l ++ [x], S y) (hheap : IsHeap le l) :
    IsHeap le (heapPush le l x) := by
  unfold heapPush sift_up
  apply sift_up_go_isHeap htot htrans l.length (l ++ [x]) l.length (Nat.le_refl _)
    (by simp) hS
  constructor
  · intro j y p hj hjne hy hq
    obtain ⟨hjb, _⟩ := List.getElem?_eq_some_iff.mp hy
    simp only [List.length_append, List.length_cons, List.length_nil] at hjb
    have hjl : j < l.length := by omega
    have hpl : (j - 1) / 2 < l.length := by omega
    rw [List.getElem?_append, if_pos hjl] at hy
    rw [List.getElem?_append, if_pos hpl] at hq
    exact hheap j y p hj hy hq
  · intro j y g h0 hj hpj hy hg
    obtain ⟨hjb, _⟩ := List.getElem?_eq_some_iff.mp hy
    simp only [List.length_append, List.length_cons, List.length_nil] at hjb
    omega

theorem sift_down_to_bottom_isHeap
    (htot : ∀ a b, S a → S b → (le a b || le b a) = true)
    (htrans : ∀ a b c, S a → S b → S c → le a b = true → le b c = true → le a c = true)
    {l : List α} (hne : l ≠ []) (hS : ∀ x ∈ l, S x) (hinv : WalkInv le l 0) :
    IsHeap le (sift_down_to_bottom le l 0) := by
  unfold sift_down_to_bottom
  have hlen : 0 < l.length := List.length_pos.mpr hne
  have hspec := sift_down_go_spec (S := S) htot l.length l 0 (by omega) hlen hS hinv
  unfold sift_up
  apply sift_up_go_isHeap htot htrans _ _ _ (Nat.le_refl _) hspec.2 ?_ hspec.1
  intro y hy
  exact hS y ((sift_down_go_perm le l.length l 0).subset hy)

theorem heapPop_isHeap
    (htot : ∀ a b, S a → S b → (le a b || le b a) = true)
    (htrans : ∀ a b c, S a → S b → S c → le a b = true → le b c = true → le a c = true)
    {l : List α} {x : α} {l2 : List α} (hheap : IsHeap le l) (hS : ∀ y ∈ l, S y)
    (h : heapPop le l = some (x, l2)) : IsHeap le l2 := by
  unfold heapPop at h
  cases hl : l.getLast? with
  | none => rw [hl] at h; cases h
  | some last =>
    rw [hl] at h
    have hne : l ≠ [] := by
      intro hh
      rw [hh] at hl
      cases hl
    have hsplit : l.dropLast ++ [last] = l := by
      have h1 := List.dropLast_append_getLast hne
      have h3 := List.getLast?_eq_getLast l hne
      rw [hl] at h3
      have h2 : last = l.getLast hne := Option.some.inj h3
      rw [← h2] at h1
      exact h1
    cases hd : l.dropLast with
    | nil =>
      rw [hd] at h hsplit
      injection h with h'
      injection h' with hx hl2
      subst hl2
      intro j y p hj hy hp
      simp at hy
    | cons r0 rtl =>
      rw [hd] at h hsplit
      injection h with h'
      injection h' with hx hl2
      subst hl2
      have hidx : ∀ k, 0 < k → k < rtl.length + 1 → (last :: rtl)[k]? = l[k]? := by
        intro k hk hkb
        rw [← hsplit]
        cases k with
        | zero => omega
        | succ k2 =>
          rw [List.getElem?_cons_succ]
          rw [List.getElem?_append,
            if_pos (by simp only [List.length_cons]; omega), List.getElem?_cons_succ]
      have hmem : ∀ y ∈ (last :: rtl), y ∈ l := by
        intro y hy
        rw [← hsplit]
        rcases List.mem_cons.mp hy with h1 | h1
        · subst h1
          simp
        · simp [h1]
      apply sift_down_to_bottom_isHeap htot htrans (by simp) (fun y hy => hS y (hmem y hy))
      constructor
      · intro j y q hj hjne hpjne hy hq
        obtain ⟨hjb, _⟩ := List.getElem?_eq_some_iff.mp hy
        simp only [List.length_cons] at hjb
        rw [hidx j hj (by omega)] at hy
        rw [hidx ((j - 1) / 2) (by omega) (by omega)] at hq
        exact hheap j y q hj hy hq
      · intro j y g h0 hj hpj hy hg
        exact absurd h0 (Nat.lt_irrefl 0)

theorem heapPop_max
    (htot : ∀ a b, S a → S b → (le a b || le b a) = true)
    (htrans : ∀ a b c, S a → S b → S c → le a b = true → le b c = true → le a c = true)
    {l : List α} {x : α} {l2 : List α} (hheap : IsHeap le l) (hS : ∀ y ∈ l, S y)
    (h : heapPop le l = some (x, l2)) : ∀ y ∈ l, le y x = true := by
  unfold heapPop at h
  cases hl : l.getLast? with
  | none => rw [hl] at h; cases h
  | some last =>
    rw [hl] at h
    have hne : l ≠ [] := by
      intro hh
      rw [hh] at hl
      cases hl
    have hsplit : l.dropLast ++ [last] = l := by
      have h1 := List.dropLast_append_getLast hne
      have h3 := List.getLast?_eq_getLast l hne
      rw [hl] at h3
      have h2 : last = l.getLast hne := Option.some.inj h3
      rw [← h2] at h1
      exact h1
    cases hd : l.dropLast with
    | nil =>
      rw [hd] at h hsplit
      injection h with h'
      injection h' with hx hl2
      subst hx
      rw [List.nil_append] at hsplit
      intro y hy
      rw [← hsplit] at hy
      rcases List.mem_singleton.mp hy with h1
      subst h1
      exact le_refl_of_S htot (hS _ (by rw [← hsplit]; simp))
    | cons r0 rtl =>
      rw [hd] at h hsplit
      injection h with h'
      injection h' with hx hl2
      subst hx
      have hr : l[0]? = some r0 := by
        rw [← hsplit]
        simp
      intro y hy
      obtain ⟨n, hn⟩ := List.getElem?_of_mem hy
      exact isHeap_root_max htot htrans hheap hS hr n y hn

end BinHeapMain

/-! ### Entry comparator lemmas -/

theorem entryLe_refl (a : Entry) : Entry.le a a = true := by
  unfold Entry.le Entry.cmp
  rw [if_pos rfl]
  rfl

theorem entryLe_of_eq_filename {a b : Entry} (h : a.filename = b.filename) :
    Entry.le a b = true := by
  unfold Entry.le Entry.cmp
  rw [if_pos h]
  rfl

theorem entryLe_iff_of_ne {a b : Entry} (h : a.filename ≠ b.filename) :
    Entry.le a b = true ↔ strLe b.first_line a.first_line := by
  simp only [Entry.le, Entry.cmp, if_neg h]
  rw [strCmp_swap]
  unfold strLe
  cases hc : strCmp b.first_line a.first_line <;> simp [Ordering.isLE, hc]

theorem entryLe_total_on {L : List Entry} :
    ∀ a b, a ∈ L → b ∈ L → (Entry.le a b || Entry.le b a) = true := by
  intro a b _ _
  by_cases h : a.filename = b.filename
  · simp [entryLe_of_eq_filename h]
  · rcases strLe_total b.first_line a.first_line with h1 | h1
    · rw [(entryLe_iff_of_ne h).mpr h1]
      simp
    · rw [(entryLe_iff_of_ne (fun he => h he.symm)).mpr h1]
      simp

theorem entryLe_trans_on {L : List Entry} (hnd : (L.map Entry.filename).Nodup) :
    ∀ a b c, a ∈ L → b ∈ L → c ∈ L →
      Entry.le a b = true → Entry.le b c = true → Entry.le a c = true := by
  intro a b c ha hb hc hab hbc
  have hinj := List.inj_on_of_nodup_map hnd
  by_cases hac : a.filename = c.filename
  · have hh : a = c := hinj ha hc hac
    rw [← hh] at hbc ⊢
    by_cases hab' : a.filename = b.filename
    · exact entryLe_refl a
    · exact entryLe_refl a
  · by_cases hab' : a.filename = b.filename
    · have hh : a = b := hinj ha hb hab'
      rw [hh]
      exact hbc
    · by_cases hbc' : b.filename = c.filename
      · have hh : b = c := hinj hb hc hbc'
        rw [← hh]
        exact hab
      · have h1 := (entryLe_iff_of_ne hab').mp hab
        have h2 := (entryLe_iff_of_ne hbc').mp hbc
        exact (entryLe_iff_of_ne hac).mpr (strLe_trans h2 h1)

/-! ### Characterizations of the merger operations -/

theorem readd_reader_error {h : Heap} {fn : String} {src : Source} {e : Nat}
    (hr : readLine src = .error e) :
    Heap.readd_reader h fn src = (.error (.readFail e), h) := by
  unfold Heap.readd_reader
  rw [hr]

theorem readd_reader_eof {h : Heap} {fn : String} {src : Source} {line : String} {s2 : Source}
    (hr : readLine src = .ok (line, 0, s2)) :
    Heap.readd_reader h fn src = (.ok none, h) := by
  unfold Heap.readd_reader
  rw [hr]
  simp

theorem readd_reader_push {h : Heap} {fn : String} {src : Source} {line : String} {n : Nat}
    {s2 : Source} (hr : readLine src = .ok (line, n, s2)) (hn : 0 < n) :
    Heap.readd_reader h fn src =
      (.ok (some (trimEnd line)), ⟨heapPush Entry.le h.heap ⟨fn, s2, trimEnd line⟩⟩) := by
  unfold Heap.readd_reader
  rw [hr]
  simp [Nat.pos_iff_ne_zero.mp hn, hn]

theorem next_none {h : Heap} (he : h.heap = []) : Heap.next h = (none, h) := by
  unfold Heap.next
  rw [(heapPop_none Entry.le h.heap).mpr he]

theorem next_read_error {h : Heap} {e : Entry} {rest : List Entry} {er : Nat}
    (hp : heapPop Entry.le h.heap = some (e, rest)) (hr : readLine e.reader = .error er) :
    Heap.next h = (some (.error (.readFail er)), ⟨rest⟩) := by
  unfold Heap.next
  simp only [hp, readd_reader_error hr]

theorem next_eof {h : Heap} {e : Entry} {rest : List Entry} {line : String} {s2 : Source}
    (hp : heapPop Entry.le h.heap = some (e, rest))
    (hr : readLine e.reader = .ok (line, 0, s2)) :
    Heap.next h = (some (.ok e.first_line), ⟨rest⟩) := by
  unfold Heap.next
  simp only [hp, readd_reader_eof hr]

theorem next_advance {h : Heap} {e : Entry} {rest : List Entry} {line : String} {n : Nat}
    {s2 : Source} (hp : heapPop Entry.le h.heap = some (e, rest))
    (hr : readLine e.reader = .ok (line, n, s2)) (hn : 0 < n)
    (hord : strCmp (trimEnd line) e.first_line ≠ .lt) :
    Heap.next h = (some (.ok e.first_line),
      ⟨heapPush Entry.le rest ⟨e.filename, s2, trimEnd line⟩⟩) := by
  unfold Heap.next
  simp only [hp, readd_reader_push hr hn]
  simp [hord]

theorem next_violation {h : Heap} {e : Entry} {rest : List Entry} {line : String} {n : Nat}
    {s2 : Source} (hp : heapPop Entry.le h.heap = some (e, rest))
    (hr : readLine e.reader = .ok (line, n, s2)) (hn : 0 < n)
    (hord : strCmp (trimEnd line) e.first_line = .lt) :
    Heap.next h = (some (.error (.outOfOrder e.filename)),
      ⟨heapPush Entry.le rest ⟨e.filename, s2, trimEnd line⟩⟩) := by
  unfold Heap.next
  simp only [hp, readd_reader_push hr hn]
  simp [hord]

/-! ### Measure and drain lemmas -/

theorem heapMeasure_congr {l1 l2 : List Entry} (hp : List.Perm l1 l2) :
    heapMeasure ⟨l1⟩ = heapMeasure ⟨l2⟩ := by
  unfold heapMeasure
  exact (hp.map (fun e => 1 + e.reader.content.length)).sum_eq

theorem heapMeasure_pop {h : Heap} {e : Entry} {rest : List Entry}
    (hp : heapPop Entry.le h.heap = some (e, rest)) :
    heapMeasure h = (1 + e.reader.content.length) + heapMeasure ⟨rest⟩ := by
  have hperm := heapPop_perm Entry.le hp
  have h1 : heapMeasure h = heapMeasure ⟨e :: rest⟩ := by
    have := heapMeasure_congr hperm
    unfold heapMeasure at this ⊢
    exact this.symm
  rw [h1]
  unfold heapMeasure
  simp

theorem heapMeasure_push (l : List Entry) (x : Entry) :
    heapMeasure ⟨heapPush Entry.le l x⟩ =
      (1 + x.reader.content.length) + heapMeasure ⟨l⟩ := by
  have h1 : heapMeasure ⟨heapPush Entry.le l x⟩ = heapMeasure ⟨x :: l⟩ :=
    heapMeasure_congr (heapPush_perm Entry.le l x)
  rw [h1]
  unfold heapMeasure
  simp

theorem next_measure_lt {h : Heap} {r : Except MergeError String} {h2 : Heap}
    (hn : Heap.next h = (some r, h2)) : heapMeasure h2 < heapMeasure h := by
  rcases hpop : heapPop Entry.le h.heap with _ | ⟨e, rest⟩
  · rw [next_none ((heapPop_none Entry.le h.heap).mp hpop)] at hn
    simp at hn
  · have hm := heapMeasure_pop hpop
    rcases hr : readLine e.reader with er | ⟨line, n, s2⟩
    · rw [next_read_error hpop hr] at hn
      injection hn with h1 h2eq
      rw [← h2eq]
      omega
    · by_cases hn0 : 0 < n
      · have hshrink := readLine_ok_shrink hr hn0
        by_cases hord : strCmp (trimEnd line) e.first_line = .lt
        · rw [next_violation hpop hr hn0 hord] at hn
          injection hn with h1 h2eq
          rw [← h2eq, heapMeasure_push]
          dsimp only
          omega
        · rw [next_advance hpop hr hn0 hord] at hn
          injection hn with h1 h2eq
          rw [← h2eq, heapMeasure_push]
          dsimp only
          omega
      · have hn0' : n = 0 := by omega
        subst hn0'
        rw [next_eof hpop hr] at hn
        injection hn with h1 h2eq
        rw [← h2eq]
        omega

theorem drainFuel_stable : ∀ (f1 f2 : Nat) (h : Heap), heapMeasure h < f1 →
    heapMeasure h < f2 → drainFuel f1 h = drainFuel f2 h := by
  intro f1
  induction f1 with
  | zero => intro f2 h hm; omega
  | succ f ih =>
    intro f2 h hm1 hm2
    cases f2 with
    | zero => omega
    | succ g =>
      simp only [drainFuel]
      rcases hnx : Heap.next h with ⟨fst, h2⟩
      cases fst with
      | none => rfl
      | some r =>
        have hlt := next_measure_lt hnx
        show r :: drainFuel f h2 = r :: drainFuel g h2
        rw [ih g h2 (by omega) (by omega)]

theorem drain_step {h : Heap} {r : Except MergeError String} {h2 : Heap}
    (hn : Heap.next h = (some r, h2)) : drain h = r :: drain h2 := by
  unfold drain
  have hlt := next_measure_lt hn
  simp only [drainFuel, hn]
  congr 1
  exact drainFuel_stable (heapMeasure h) (heapMeasure h2 + 1) h2 (by omega) (by omega)

theorem drain_empty {h : Heap} (he : h.heap = []) : drain h = [] := by
  unfold drain
  simp only [drainFuel, next_none he]

/-! ### Full-drain theorems -/

theorem drain_ok_perm (n : Nat) : ∀ (h : Heap), heapMeasure h ≤ n →
    (∀ e ∈ h.heap, GoodEntry e) →
    ∃ ls : List String, drain h = ls.map Except.ok ∧ List.Perm ls (allLines h) := by
  induction n with
  | zero =>
    intro h hm hgood
    have he : h.heap = [] := by
      cases hh : h.heap with
      | nil => rfl
      | cons e t =>
        exfalso
        unfold heapMeasure at hm
        rw [hh] at hm
        simp [List.sum_cons] at hm
    refine ⟨[], ?_, ?_⟩
    · rw [drain_empty he]
      rfl
    · rw [allLines, he]
      simp
  | succ n ih =>
    intro h hm hgood
    rcases hpop : heapPop Entry.le h.heap with _ | ⟨e, rest⟩
    · have he := (heapPop_none Entry.le h.heap).mp hpop
      refine ⟨[], ?_, ?_⟩
      · rw [drain_empty he]
        rfl
      · rw [allLines, he]
        simp
    · have hperm := heapPop_perm Entry.le hpop
      have hgE : GoodEntry e := hgood e (hperm.subset (List.mem_cons_self e rest))
      obtain ⟨hfault, hchain⟩ := hgE
      have hrestgood : ∀ e2 ∈ rest, GoodEntry e2 := fun e2 he2 =>
        hgood e2 (hperm.subset (List.mem_cons_of_mem e he2))
      have hall : List.Perm (allLines h)
          ((e.first_line :: linesOf e.reader.content) ++ allLines ⟨rest⟩) := by
        unfold allLines
        have hj := (hperm.map (fun e2 => e2.first_line :: linesOf e2.reader.content)).flatten
        refine hj.symm.trans ?_
        simp
      by_cases hcnil : e.reader.content = []
      · have hr := readLine_empty_content hcnil hfault
        have hnx := next_eof hpop hr
        have hstep := drain_step hnx
        have hm2 : heapMeasure ⟨rest⟩ ≤ n := by
          have := next_measure_lt hnx
          omega
        obtain ⟨ls2, hd2, hp2⟩ := ih ⟨rest⟩ hm2 hrestgood
        refine ⟨e.first_line :: ls2, ?_, ?_⟩
        · rw [hstep, hd2]
          rfl
        · have h1 := hp2.cons e.first_line
          rw [hcnil] at hall
          exact h1.trans (by simpa using hall.symm)
      · obtain ⟨line, n2, rest2, hr, hnpos, hshrink, hlines⟩ := readLine_to_linesOf hfault hcnil
        rw [hlines] at hchain
        have hord : strCmp (trimEnd line) e.first_line ≠ .lt :=
          not_lt_of_strLe (List.chain'_cons.mp hchain).1
        have hnx := next_advance hpop hr hnpos hord
        have hstep := drain_step hnx
        have hm2 : heapMeasure ⟨heapPush Entry.le rest
            ⟨e.filename, ⟨rest2, none⟩, trimEnd line⟩⟩ ≤ n := by
          have := next_measure_lt hnx
          omega
        have hgood2 : ∀ e2 ∈ heapPush Entry.le rest
            ⟨e.filename, ⟨rest2, none⟩, trimEnd line⟩, GoodEntry e2 := by
          intro e2 he2
          rcases List.mem_cons.mp ((heapPush_perm Entry.le rest _).subset he2) with h1 | h1
          · subst h1
            exact ⟨rfl, (List.chain'_cons.mp hchain).2⟩
          · exact hrestgood e2 h1
        obtain ⟨ls2, hd2, hp2⟩ := ih ⟨heapPush Entry.le rest
          ⟨e.filename, ⟨rest2, none⟩, trimEnd line⟩⟩ hm2 hgood2
        refine ⟨e.first_line :: ls2, ?_, ?_⟩
        · rw [hstep, hd2]
          rfl
        · have hall2 : List.Perm
              (allLines ⟨heapPush Entry.le rest ⟨e.filename, ⟨rest2, none⟩, trimEnd line⟩⟩)
              ((trimEnd line :: linesOf rest2) ++ allLines ⟨rest⟩) := by
            unfold allLines
            have hjp := ((heapPush_perm Entry.le rest
              ⟨e.filename, ⟨rest2, none⟩, trimEnd line⟩).map
              (fun e2 => e2.first_line :: linesOf e2.reader.content)).flatten
            refine hjp.trans ?_
            simp
          have h1 := hp2.cons e.first_line
          have h2 := hall2.cons e.first_line
          refine (h1.trans h2).trans ?_
          rw [hlines] at hall
          exact (by simpa using hall.symm)

theorem drain_sorted_of_inv (n : Nat) : ∀ (h : Heap), heapMeasure h ≤ n → MergeInv h →
    ∃ ls : List String, drain h = ls.map Except.ok ∧ List.Perm ls (allLines h) ∧
      List.Chain' strLe ls ∧
      (∀ b, (∀ e2 ∈ h.heap, strLe b e2.first_line) → ∀ x ∈ ls, strLe b x) := by
  induction n with
  | zero =>
    intro h hm hinv
    have he : h.heap = [] := by
      cases hh : h.heap with
      | nil => rfl
      | cons e t =>
        exfalso
        unfold heapMeasure at hm
        rw [hh] at hm
        simp [List.sum_cons] at hm
    refine ⟨[], by rw [drain_empty he]; rfl, by rw [allLines, he]; simp, by simp, by simp⟩
  | succ n ih =>
    intro h hm hinv
    obtain ⟨hgood, hnd, hheap⟩ := hinv
    rcases hpop : heapPop Entry.le h.heap with _ | ⟨e, rest⟩
    · have he := (heapPop_none Entry.le h.heap).mp hpop
      refine ⟨[], by rw [drain_empty he]; rfl, by rw [allLines, he]; simp, by simp, by simp⟩
    · have hperm := heapPop_perm Entry.le hpop
      have hgE : GoodEntry e := hgood e (hperm.subset (List.mem_cons_self e rest))
      obtain ⟨hfault, hchain⟩ := hgE
      have hrestgood : ∀ e2 ∈ rest, GoodEntry e2 := fun e2 he2 =>
        hgood e2 (hperm.subset (List.mem_cons_of_mem e he2))
      have hnd2 : (List.map Entry.filename (e :: rest)).Nodup :=
        ((hperm.map Entry.filename).nodup_iff).mpr hnd
      have hfn_notin : e.filename ∉ List.map Entry.filename rest :=
        (List.nodup_cons.mp hnd2).1
      have hnd_rest : (List.map Entry.filename rest).Nodup := (List.nodup_cons.mp hnd2).2
      have hmax := heapPop_max (S := fun x => x ∈ h.heap) entryLe_total_on
        (entryLe_trans_on hnd) hheap (fun y hy => hy) hpop
      have hmin : ∀ e2 ∈ rest, strLe e.first_line e2.first_line := by
        intro e2 he2
        have hm2 : e2 ∈ h.heap := hperm.subset (List.mem_cons_of_mem e he2)
        have hne : e2.filename ≠ e.filename := by
          intro hc
          exact hfn_notin (hc ▸ List.mem_map_of_mem Entry.filename he2)
        exact (entryLe_iff_of_ne hne).mp (hmax e2 hm2)
      have hheap_rest : IsHeap Entry.le rest :=
        heapPop_isHeap (S := fun x => x ∈ h.heap) entryLe_total_on
          (entryLe_trans_on hnd) hheap (fun y hy => hy) hpop
      have hall : List.Perm (allLines h)
          ((e.first_line :: linesOf e.reader.content) ++ allLines ⟨rest⟩) := by
        unfold allLines
        have hj := (hperm.map (fun e2 => e2.first_line :: linesOf e2.reader.content)).flatten
        refine hj.symm.trans ?_
        simp
      by_cases hcnil : e.reader.content = []
      · have hr := readLine_empty_content hcnil hfault
        have hnx := next_eof hpop hr
        have hstep := drain_step hnx
        have hm2 : heapMeasure ⟨rest⟩ ≤ n := by
          have := next_measure_lt hnx
          omega
        obtain ⟨ls2, hd2, hp2, hc2, hbnd2⟩ := ih ⟨rest⟩ hm2 ⟨hrestgood, hnd_rest, hheap_rest⟩
        refine ⟨e.first_line :: ls2, ?_, ?_, ?_, ?_⟩
        · rw [hstep, hd2]
          rfl
        · have h1 := hp2.cons e.first_line
          rw [hcnil] at hall
          exact h1.trans (by simpa using hall.symm)
        · rw [List.chain'_cons']
          refine ⟨?_, hc2⟩
          intro y hy
          exact hbnd2 e.first_line hmin y (List.mem_of_mem_head? hy)
        · intro b hb x hx
          rcases List.mem_cons.mp hx with h1 | h1
          · subst h1
            exact hb e (hperm.subset (List.mem_cons_self e rest))
          · refine hbnd2 b ?_ x h1
            intro e2 he2
            exact hb e2 (hperm.subset (List.mem_cons_of_mem e he2))
      · obtain ⟨line, n2, rest2, hr, hnpos, hshrink, hlines⟩ := readLine_to_linesOf hfault hcnil
        rw [hlines] at hchain
        have hheadle : strLe e.first_line (trimEnd line) := (List.chain'_cons.mp hchain).1
        have hord : strCmp (trimEnd line) e.first_line ≠ .lt := not_lt_of_strLe hheadle
        have hnx := next_advance hpop hr hnpos hord
        have hstep := drain_step hnx
        have hm2 : heapMeasure ⟨heapPush Entry.le rest
            ⟨e.filename, ⟨rest2, none⟩, trimEnd line⟩⟩ ≤ n := by
          have := next_measure_lt hnx
          omega
        have hpperm := heapPush_perm Entry.le rest
          (⟨e.filename, ⟨rest2, none⟩, trimEnd line⟩ : Entry)
        have hgood2 : ∀ e2 ∈ heapPush Entry.le rest
            ⟨e.filename, ⟨rest2, none⟩, trimEnd line⟩, GoodEntry e2 := by
          intro e2 he2
          rcases List.mem_cons.mp (hpperm.subset he2) with h1 | h1
          · subst h1
            exact ⟨rfl, (List.chain'_cons.mp hchain).2⟩
          · exact hrestgood e2 h1
        have hndcons : (List.map Entry.filename
            ((⟨e.filename, ⟨rest2, none⟩, trimEnd line⟩ : Entry) :: rest)).Nodup := by
          rw [List.map_cons]
          exact List.nodup_cons.mpr ⟨hfn_notin, hnd_rest⟩
        have hnd_push : (List.map Entry.filename (heapPush Entry.le rest
            ⟨e.filename, ⟨rest2, none⟩, trimEnd line⟩)).Nodup :=
          ((hpperm.map Entry.filename).nodup_iff).mpr hndcons
        have hnd_app : (List.map Entry.filename
            (rest ++ [(⟨e.filename, ⟨rest2, none⟩, trimEnd line⟩ : Entry)])).Nodup :=
          (((List.perm_append_singleton _ rest).map Entry.filename).nodup_iff).mpr hndcons
        have hheap_push : IsHeap Entry.le (heapPush Entry.le rest
            ⟨e.filename, ⟨rest2, none⟩, trimEnd line⟩) :=
          heapPush_isHeap (S := fun x => x ∈ rest ++
              [(⟨e.filename, ⟨rest2, none⟩, trimEnd line⟩ : Entry)])
            entryLe_total_on (entryLe_trans_on hnd_app) (fun y hy => hy) hheap_rest
        obtain ⟨ls2, hd2, hp2, hc2, hbnd2⟩ := ih ⟨heapPush Entry.le rest
          ⟨e.filename, ⟨rest2, none⟩, trimEnd line⟩⟩ hm2 ⟨hgood2, hnd_push, hheap_push⟩
        have hboundpush : ∀ e2 ∈ heapPush Entry.le rest
            ⟨e.filename, ⟨rest2, none⟩, trimEnd line⟩, strLe e.first_line e2.first_line := by
          intro e2 he2
          rcases List.mem_cons.mp (hpperm.subset he2) with h1 | h1
          · subst h1
            exact hheadle
          · exact hmin e2 h1
        refine ⟨e.first_line :: ls2, ?_, ?_, ?_, ?_⟩
        · rw [hstep, hd2]
          rfl
        · have hall2 : List.Perm
              (allLines ⟨heapPush Entry.le rest ⟨e.filename, ⟨rest2, none⟩, trimEnd line⟩⟩)
              ((trimEnd line :: linesOf rest2) ++ allLines ⟨rest⟩) := by
            unfold allLines
            have hjp := (hpperm.map
              (fun e2 => e2.first_line :: linesOf e2.reader.content)).flatten
            refine hjp.trans ?_
            simp
          have h1 := hp2.cons e.first_line
          have h2 := hall2.cons e.first_line
          refine (h1.trans h2).trans ?_
          rw [hlines] at hall
          exact (by simpa using hall.symm)
        · rw [List.chain'_cons']
          refine ⟨?_, hc2⟩
          intro y hy
          exact hbnd2 e.first_line hboundpush y (List.mem_of_mem_head? hy)
        · intro b hb x hx
          rcases List.mem_cons.mp hx with h1 | h1
          · subst h1
            exact hb e (hperm.subset (List.mem_cons_self e rest))
          · refine hbnd2 b ?_ x h1
            intro e2 he2
            rcases List.mem_cons.mp (hpperm.subset he2) with h2 | h2
            · subst h2
              exact strLe_trans (hb e (hperm.subset (List.mem_cons_self e rest))) hheadle
            · exact hb e2 (hperm.subset (List.mem_cons_of_mem e h2))

/-! ### Registration lemmas -/

theorem add_reader_step {h : Heap} {fn : String} {src : Source} (hfault : src.fault = none) :
    (src.content = [] ∧ Heap.add_reader h fn src = (.ok none, h)) ∨
    (∃ line n2 rest2, readLine src = .ok (line, n2, ⟨rest2, none⟩) ∧ 0 < n2 ∧
      linesOf src.content = trimEnd line :: linesOf rest2 ∧
      Heap.add_reader h fn src = (.ok (some (trimEnd line)),
        ⟨heapPush Entry.le h.heap ⟨fn, ⟨rest2, none⟩, trimEnd line⟩⟩)) := by
  by_cases hc : src.content = []
  · left
    exact ⟨hc, readd_reader_eof (readLine_empty_content hc hfault)⟩
  · right
    obtain ⟨line, n2, rest2, hr, hnpos, _, hlines⟩ := readLine_to_linesOf hfault hc
    exact ⟨line, n2, rest2, hr, hnpos, hlines, readd_reader_push hr hnpos⟩

theorem addAll_cons (h : Heap) (p : String × Source) (streams : List (String × Source)) :
    addAll h (p :: streams) = addAll (Heap.add_reader h p.1 p.2).2 streams := by
  unfold addAll
  rw [List.foldl_cons]

theorem addAll_good (streams : List (String × Source)) :
    ∀ (h : Heap), (∀ e ∈ h.heap, GoodEntry e) →
      (∀ p ∈ streams, p.2.fault = none ∧ List.Chain' strLe (linesOf p.2.content)) →
      (∀ e ∈ (addAll h streams).heap, GoodEntry e) ∧
      List.Perm (allLines (addAll h streams))
        (allLines h ++ (streams.map (fun p => linesOf p.2.content)).flatten) := by
  induction streams with
  | nil =>
    intro h hgood _
    refine ⟨hgood, ?_⟩
    simp [addAll]
  | cons p rest ih =>
    intro h hgood hstreams
    obtain ⟨hfault, hchain⟩ := hstreams p (List.mem_cons_self p rest)
    rw [addAll_cons]
    rcases @add_reader_step h p.1 p.2 hfault with ⟨hc, hadd⟩ | hstep
    · rw [hadd]
      obtain ⟨hg2, hp2⟩ := ih h hgood (fun q hq => hstreams q (List.mem_cons_of_mem p hq))
      refine ⟨hg2, hp2.trans ?_⟩
      rw [List.map_cons, List.flatten_cons, hc]
      simp [linesOf, linesOfGo]
    · obtain ⟨line, n2, rest2, hr, hnpos, hlines, hadd⟩ := hstep
      rw [hadd]
      have hpperm := heapPush_perm Entry.le h.heap
        (⟨p.1, ⟨rest2, none⟩, trimEnd line⟩ : Entry)
      have hgood2 : ∀ e ∈ (⟨heapPush Entry.le h.heap
          ⟨p.1, ⟨rest2, none⟩, trimEnd line⟩⟩ : Heap).heap, GoodEntry e := by
        intro e2 he2
        rcases List.mem_cons.mp (hpperm.subset he2) with h1 | h1
        · subst h1
          refine ⟨rfl, ?_⟩
          rw [hlines] at hchain
          exact hchain
        · exact hgood e2 h1
      obtain ⟨hg2, hp2⟩ := ih _ hgood2 (fun q hq => hstreams q (List.mem_cons_of_mem p hq))
      refine ⟨hg2, hp2.trans ?_⟩
      have hall2 : List.Perm
          (allLines (⟨heapPush Entry.le h.heap ⟨p.1, ⟨rest2, none⟩, trimEnd line⟩⟩ : Heap))
          ((trimEnd line :: linesOf rest2) ++ allLines h) := by
        unfold allLines
        have hjp := (hpperm.map (fun e2 => e2.first_line :: linesOf e2.reader.content)).flatten
        refine hjp.trans ?_
        simp
      refine (hall2.append_right _).trans ?_
      rw [List.map_cons, List.flatten_cons, hlines]
      have heq : (trimEnd line :: linesOf rest2) ++ allLines h ++
          (List.map (fun p => linesOf p.2.content) rest).flatten =
          (trimEnd line :: linesOf rest2) ++ (allLines h ++
          (List.map (fun p => linesOf p.2.content) rest).flatten) := by
        simp
      rw [heq]
      have hswap : List.Perm (allLines h ++
          (List.map (fun p => linesOf p.2.content) rest).flatten)
          ((List.map (fun p => linesOf p.2.content) rest).flatten ++ allLines h) :=
        List.perm_append_comm
      refine (hswap.append_left _).trans ?_
      have heq2 : (trimEnd line :: linesOf rest2) ++
          ((List.map (fun p => linesOf p.2.content) rest).flatten ++ allLines h) =
          ((trimEnd line :: linesOf rest2) ++
          (List.map (fun p => linesOf p.2.content) rest).flatten) ++ allLines h := by
        simp
      rw [heq2]
      exact List.perm_append_comm

theorem addAll_inv (streams : List (String × Source)) :
    ∀ (h : Heap), MergeInv h →
      (∀ p ∈ streams, p.2.fault = none ∧ List.Chain' strLe (linesOf p.2.content)) →
      ((streams.map Prod.fst) ++ h.heap.map Entry.filename).Nodup →
      MergeInv (addAll h streams) ∧
      List.Perm (allLines (addAll h streams))
        (allLines h ++ (streams.map (fun p => linesOf p.2.content)).flatten) := by
  induction streams with
  | nil =>
    intro h hinv _ _
    refine ⟨hinv, ?_⟩
    simp [addAll]
  | cons p rest ih =>
    intro h hinv hstreams hnd
    obtain ⟨hgood, hndh, hheap⟩ := hinv
    obtain ⟨hfault, hchain⟩ := hstreams p (List.mem_cons_self p rest)
    rw [addAll_cons]
    rcases @add_reader_step h p.1 p.2 hfault with ⟨hc, hadd⟩ | hstep
    · rw [hadd]
      have hnd2 : ((rest.map Prod.fst) ++ h.heap.map Entry.filename).Nodup := by
        rw [List.map_cons, List.cons_append] at hnd
        exact (List.nodup_cons.mp hnd).2
      obtain ⟨hg2, hp2⟩ := ih h ⟨hgood, hndh, hheap⟩
        (fun q hq => hstreams q (List.mem_cons_of_mem p hq)) hnd2
      refine ⟨hg2, hp2.trans ?_⟩
      rw [List.map_cons, List.flatten_cons, hc]
      simp [linesOf, linesOfGo]
    · obtain ⟨line, n2, rest2, hr, hnpos, hlines, hadd⟩ := hstep
      rw [hadd]
      have hpperm := heapPush_perm Entry.le h.heap
        (⟨p.1, ⟨rest2, none⟩, trimEnd line⟩ : Entry)
      have hp1_notin : p.1 ∉ h.heap.map Entry.filename := by
        rw [List.map_cons, List.cons_append] at hnd
        intro hc2
        exact (List.nodup_cons.mp hnd).1 (List.mem_append_right _ hc2)
      have hgood2 : ∀ e ∈ (⟨heapPush Entry.le h.heap
          ⟨p.1, ⟨rest2, none⟩, trimEnd line⟩⟩ : Heap).heap, GoodEntry e := by
        intro e2 he2
        rcases List.mem_cons.mp (hpperm.subset he2) with h1 | h1
        · subst h1
          refine ⟨rfl, ?_⟩
          rw [hlines] at hchain
          exact hchain
        · exact hgood e2 h1
      have hndcons : (List.map Entry.filename
          ((⟨p.1, ⟨rest2, none⟩, trimEnd line⟩ : Entry) :: h.heap)).Nodup := by
        rw [List.map_cons]
        exact List.nodup_cons.mpr ⟨hp1_notin, hndh⟩
      have hnd_push : (List.map Entry.filename (heapPush Entry.le h.heap
          ⟨p.1, ⟨rest2, none⟩, trimEnd line⟩)).Nodup :=
        ((hpperm.map Entry.filename).nodup_iff).mpr hndcons
      have hnd_app : (List.map Entry.filename
          (h.heap ++ [(⟨p.1, ⟨rest2, none⟩, trimEnd line⟩ : Entry)])).Nodup :=
        (((List.perm_append_singleton _ h.heap).map Entry.filename).nodup_iff).mpr hndcons
      have hheap_push : IsHeap Entry.le (heapPush Entry.le h.heap
          ⟨p.1, ⟨rest2, none⟩, trimEnd line⟩) :=
        heapPush_isHeap (S := fun x => x ∈ h.heap ++
            [(⟨p.1, ⟨rest2, none⟩, trimEnd line⟩ : Entry)])
          entryLe_total_on (entryLe_trans_on hnd_app) (fun y hy => hy) hheap
      have hnd2 : ((rest.map Prod.fst) ++
          (heapPush Entry.le h.heap
            ⟨p.1, ⟨rest2, none⟩, trimEnd line⟩).map Entry.filename).Nodup := by
        have hbig : List.Perm ((rest.map Prod.fst) ++
            (heapPush Entry.le h.heap
              ⟨p.1, ⟨rest2, none⟩, trimEnd line⟩).map Entry.filename)
            (((p :: rest).map Prod.fst) ++ h.heap.map Entry.filename) := by
          refine ((hpperm.map Entry.filename).append_left _).trans ?_
          rw [List.map_cons, List.map_cons, List.cons_append]
          exact List.perm_append_comm.trans
            ((List.perm_append_comm.cons p.1).trans (List.Perm.refl _)).symm.symm
        exact hbig.nodup_iff.mpr hnd
      obtain ⟨hg2, hp2⟩ := ih ⟨heapPush Entry.le h.heap
          ⟨p.1, ⟨rest2, none⟩, trimEnd line⟩⟩ ⟨hgood2, hnd_push, hheap_push⟩
        (fun q hq => hstreams q (List.mem_cons_of_mem p hq)) hnd2
      refine ⟨hg2, hp2.trans ?_⟩
      have hall2 : List.Perm
          (allLines (⟨heapPush Entry.le h.heap ⟨p.1, ⟨rest2, none⟩, trimEnd line⟩⟩ : Heap))
          ((trimEnd line :: linesOf rest2) ++ allLines h) := by
        unfold allLines
        have hjp := (hpperm.map (fun e2 => e2.first_line :: linesOf e2.reader.content)).flatten
        refine hjp.trans ?_
        simp
      refine (hall2.append_right _).trans ?_
      rw [List.map_cons, List.flatten_cons, hlines]
      have heq : (trimEnd line :: linesOf rest2) ++ allLines h ++
          (List.map (fun p => linesOf p.2.content) rest).flatten =
          (trimEnd line :: linesOf rest2) ++ (allLines h ++
          (List.map (fun p => linesOf p.2.content) rest).flatten) := by
        simp
      rw [heq]
      have hswap : List.Perm (allLines h ++
          (List.map (fun p => linesOf p.2.content) rest).flatten)
          ((List.map (fun p => linesOf p.2.content) rest).flatten ++ allLines h) :=
        List.perm_append_comm
      refine (hswap.append_left _).trans ?_
      have heq2 : (trimEnd line :: linesOf rest2) ++
          ((List.map (fun p => linesOf p.2.content) rest).flatten ++ allLines h) =
          ((trimEnd line :: linesOf rest2) ++
          (List.map (fun p => linesOf p.2.content) rest).flatten) ++ allLines h := by
        simp
      rw [heq2]
      exact List.perm_append_comm

/-! ### Helper lemmas for the end-of-sequence claim -/

theorem heapPush_length {α : Type} (le : α → α → Bool) (l : List α) (x : α) :
    (heapPush le l x).length = l.length + 1 := by
  unfold heapPush sift_up
  rw [sift_up_go_length]
  simp

theorem next_some_of_pop {h : Heap} {e : Entry} {rest : List Entry}
    (hp : heapPop Entry.le h.heap = some (e, rest)) :
    ∃ r h2, Heap.next h = (some r, h2) := by
  rcases hr : readLine e.reader with er | ⟨line, n, s2⟩
  · exact ⟨_, _, next_read_error hp hr⟩
  · by_cases hn : 0 < n
    · by_cases hord : strCmp (trimEnd line) e.first_line = .lt
      · exact ⟨_, _, next_violation hp hr hn hord⟩
      · exact ⟨_, _, next_advance hp hr hn hord⟩
    · have h0 : n = 0 := by omega
      subst h0
      exact ⟨_, _, next_eof hp hr⟩

theorem next_none_heap_empty {h : Heap} (hn : (Heap.next h).1 = none) : h.heap = [] := by
  rcases hpop : heapPop Entry.le h.heap with _ | ⟨e, rest⟩
  · exact (heapPop_none Entry.le h.heap).mp hpop
  · obtain ⟨r, h2, hx⟩ := next_some_of_pop hpop
    rw [hx] at hn
    cases hn

theorem add_reader_eq_readd (h : Heap) (fn : String) (src : Source) :
    Heap.add_reader h fn src = Heap.readd_reader h fn src := rfl

/-! ### Claim theorems -/

/-- Claim C2: whenever, during a `Heap.next` call, the line read to replace a
popped cursor's head compares strictly less than that popped head, the call
produces an error carrying the offending stream's label instead of producing
the line.  (The concrete single-stream `["foo","bar"]` scenario is the
witness below.) -/
theorem C2_out_of_order_error (h : Heap) (e : Entry) (rest : List Entry)
    (line : String) (n : Nat) (s2 : Source)
    (hp : heapPop Entry.le h.heap = some (e, rest))
    (hr : readLine e.reader = .ok (line, n, s2)) (hn : 0 < n)
    (hlt : strCmp (trimEnd line) e.first_line = .lt) :
    (Heap.next h).1 = some (.error (.outOfOrder e.filename)) := by
  rw [next_violation hp hr hn hlt]

theorem C2_out_of_order_error_witness :
    heapPop Entry.le (Heap.add_reader Heap.new "file1" ⟨"foo\nbar".data, none⟩).2.heap =
      some (⟨"file1", ⟨"bar".data, none⟩, "foo"⟩, []) ∧
    (Heap.next (Heap.add_reader Heap.new "file1" ⟨"foo\nbar".data, none⟩).2).1 =
      some (.error (.outOfOrder "file1")) :=
  ⟨by decide,
    C2_out_of_order_error _ ⟨"file1", ⟨"bar".data, none⟩, "foo"⟩ [] "bar" 3 ⟨[], none⟩
      (by decide) (by decide) (by decide) (by decide)⟩

/-- Claim C3 counterexample: after the out-of-order error on the single
stream `["foo","bar"]`, the very next `Heap.next` call produces the violating
line `"bar"` — the cursor was re-inserted, not discarded. -/
theorem C3_counterexample :
    (Heap.next (Heap.add_reader Heap.new "file1" ⟨"foo\nbar".data, none⟩).2).1 =
      some (.error (.outOfOrder "file1")) ∧
    (Heap.next (Heap.next (Heap.add_reader Heap.new "file1"
      ⟨"foo\nbar".data, none⟩).2).2).1 = some (.ok "bar") := by
  decide

/-- Claim C3 (amended): when `Heap.next` detects an ordering violation, the
violating new line is NOT discarded: before the error is returned the cursor
has already been re-inserted into the priority collection with the violating
line as its head, so subsequent calls produce it and the stream's further
lines. -/
theorem C3_violation_reinserted (h : Heap) (e : Entry) (rest : List Entry)
    (line : String) (n : Nat) (s2 : Source)
    (hp : heapPop Entry.le h.heap = some (e, rest))
    (hr : readLine e.reader = .ok (line, n, s2)) (hn : 0 < n)
    (hlt : strCmp (trimEnd line) e.first_line = .lt) :
    (Heap.next h).1 = some (.error (.outOfOrder e.filename)) ∧
    (⟨e.filename, s2, trimEnd line⟩ : Entry) ∈ (Heap.next h).2.heap := by
  rw [next_violation hp hr hn hlt]
  refine ⟨rfl, ?_⟩
  exact (heapPush_perm Entry.le rest _).mem_iff.mpr (List.mem_cons_self _ _)

theorem C3_violation_reinserted_witness :
    (Heap.next (Heap.add_reader Heap.new "file1" ⟨"foo\nbar".data, none⟩).2).1 =
      some (.error (.outOfOrder "file1")) ∧
    (⟨"file1", ⟨[], none⟩, "bar"⟩ : Entry) ∈
      (Heap.next (Heap.add_reader Heap.new "file1" ⟨"foo\nbar".data, none⟩).2).2.heap :=
  C3_violation_reinserted _ ⟨"file1", ⟨"bar".data, none⟩, "foo"⟩ [] "bar" 3 ⟨[], none⟩
    (by decide) (by decide) (by decide) (by decide)

/-- Claim C4 counterexample: a popped cursor whose follow-up read fails does
NOT get its head produced — the read error is produced instead, even though
no ordering violation was detected.  Here the head `"a"` is popped but the
call yields the propagated read failure. -/
theorem C4_counterexample :
    heapPop Entry.le (Heap.add_reader Heap.new "f" ⟨"a\n".data, some 7⟩).2.heap =
      some (⟨"f", ⟨[], some 7⟩, "a"⟩, []) ∧
    (Heap.next (Heap.add_reader Heap.new "f" ⟨"a\n".data, some 7⟩).2).1 =
      some (.error (.readFail 7)) := by
  decide

/-- Claim C4 (amended): for every `Heap.next` call that pops a cursor, the
popped head value is produced as the call's output line when the follow-up
read succeeds without an ordering violation — whether the stream is exhausted
(zero characters) or the cursor is re-inserted with a new head — with two
exceptions, each producing an error instead of the line: a detected ordering
violation, and a follow-up read failure. -/
theorem C4_next_produces_head (h : Heap) (e : Entry) (rest : List Entry)
    (hp : heapPop Entry.le h.heap = some (e, rest)) :
    (∀ er, readLine e.reader = .error er →
      (Heap.next h).1 = some (.error (.readFail er))) ∧
    (∀ line n s2, readLine e.reader = .ok (line, n, s2) →
      (0 < n → strCmp (trimEnd line) e.first_line ≠ .lt →
        (Heap.next h).1 = some (.ok e.first_line)) ∧
      (0 < n → strCmp (trimEnd line) e.first_line = .lt →
        (Heap.next h).1 = some (.error (.outOfOrder e.filename))) ∧
      (n = 0 → (Heap.next h).1 = some (.ok e.first_line))) := by
  refine ⟨?_, ?_⟩
  · intro er hr
    rw [next_read_error hp hr]
  · intro line n s2 hr
    refine ⟨?_, ?_, ?_⟩
    · intro hn hord
      rw [next_advance hp hr hn hord]
    · intro hn hord
      rw [next_violation hp hr hn hord]
    · intro h0
      subst h0
      rw [next_eof hp hr]

theorem C4_next_produces_head_witness :
    heapPop Entry.le (Heap.add_reader Heap.new "f" ⟨"bar\nfoo".data, none⟩).2.heap =
      some (⟨"f", ⟨"foo".data, none⟩, "bar"⟩, []) ∧
    (Heap.next (Heap.add_reader Heap.new "f" ⟨"bar\nfoo".data, none⟩).2).1 =
      some (.ok "bar") :=
  ⟨by decide,
    ((C4_next_produces_head _ ⟨"f", ⟨"foo".data, none⟩, "bar"⟩ [] (by decide)).2
      "foo" 3 ⟨[], none⟩ (by decide)).1 (by decide) (by decide)⟩

/-- Claim C5: registration on a stream whose first read yields data returns
that (trimmed) line and inserts exactly one new cursor holding it as head; on
a stream with no data it returns absence and leaves the collection unchanged;
on an underlying read failure it propagates the error and leaves the
collection unchanged. -/
theorem C5_add_reader_spec (h : Heap) (fn : String) (src : Source) :
    (∀ er, readLine src = .error er →
      Heap.add_reader h fn src = (.error (.readFail er), h)) ∧
    (∀ line s2, readLine src = .ok (line, 0, s2) →
      Heap.add_reader h fn src = (.ok none, h)) ∧
    (∀ line n s2, readLine src = .ok (line, n, s2) → 0 < n →
      (Heap.add_reader h fn src).1 = .ok (some (trimEnd line)) ∧
      List.Perm (Heap.add_reader h fn src).2.heap (⟨fn, s2, trimEnd line⟩ :: h.heap)) := by
  refine ⟨?_, ?_, ?_⟩
  · intro er hr
    exact readd_reader_error hr
  · intro line s2 hr
    exact readd_reader_eof hr
  · intro line n s2 hr hn
    have hh := @readd_reader_push h fn src line n s2 hr hn
    constructor
    · show (Heap.readd_reader h fn src).1 = _
      rw [hh]
    · show List.Perm (Heap.readd_reader h fn src).2.heap _
      rw [hh]
      exact heapPush_perm Entry.le h.heap _

theorem C5_add_reader_spec_witness :
    Heap.add_reader Heap.new "f" ⟨[], some 3⟩ = (.error (.readFail 3), Heap.new) ∧
    Heap.add_reader Heap.new "f" ⟨[], none⟩ = (.ok none, Heap.new) ∧
    ((Heap.add_reader Heap.new "f" ⟨"a".data, none⟩).1 = .ok (some (trimEnd "a")) ∧
      List.Perm (Heap.add_reader Heap.new "f" ⟨"a".data, none⟩).2.heap
        (⟨"f", ⟨[], none⟩, trimEnd "a"⟩ :: Heap.new.heap)) :=
  ⟨(C5_add_reader_spec Heap.new "f" ⟨[], some 3⟩).1 3 (by decide),
   (C5_add_reader_spec Heap.new "f" ⟨[], none⟩).2.1 "" ⟨[], none⟩ (by decide),
   (C5_add_reader_spec Heap.new "f" ⟨"a".data, none⟩).2.2 "a" 1 ⟨[], none⟩
     (by decide) (by decide)⟩

/-- Claim C6 counterexample: the raw line `"a \n"` (trailing space before the
terminator) is stored and returned as `"a"`, not `"a "` — trailing whitespace
other than the terminator is removed as well, so the head is not the raw line
with exactly the terminator stripped. -/
theorem C6_counterexample :
    (Heap.add_reader Heap.new "f" ⟨"a \nb".data, none⟩).1 = .ok (some "a") ∧
    (Heap.add_reader Heap.new "f" ⟨"a \nb".data, none⟩).2.heap =
      [⟨"f", ⟨"b".data, none⟩, "a"⟩] ∧
    "a" ≠ "a " := by
  decide

/-- Claim C6 (amended): every line stored as a cursor head and returned by
registration equals the raw line with its longest whitespace suffix (the
terminator included) removed: the raw line is the stored head followed by
whitespace only, and the stored head itself ends in no whitespace
character. -/
theorem C6_trim_spec (h : Heap) (fn : String) (src : Source) (line : String) (n : Nat)
    (s2 : Source) (hr : readLine src = .ok (line, n, s2)) (hn : 0 < n) :
    (Heap.add_reader h fn src).1 = .ok (some (trimEnd line)) ∧
    List.Perm (Heap.add_reader h fn src).2.heap (⟨fn, s2, trimEnd line⟩ :: h.heap) ∧
    (∃ ws, line.data = (trimEnd line).data ++ ws ∧ ∀ c ∈ ws, isRustWhitespace c = true) ∧
    (∀ c, (trimEnd line).data.getLast? = some c → isRustWhitespace c = false) := by
  have hh := @readd_reader_push h fn src line n s2 hr hn
  refine ⟨?_, ?_, trimEnd_is_suffix_strip line, trimEnd_last_not_ws line⟩
  · show (Heap.readd_reader h fn src).1 = _
    rw [hh]
  · show List.Perm (Heap.readd_reader h fn src).2.heap _
    rw [hh]
    exact heapPush_perm Entry.le h.heap _

theorem C6_trim_spec_witness :
    (Heap.add_reader Heap.new "f" ⟨"a \nb".data, none⟩).1 = .ok (some (trimEnd "a \n")) ∧
    List.Perm (Heap.add_reader Heap.new "f" ⟨"a \nb".data, none⟩).2.heap
      (⟨"f", ⟨"b".data, none⟩, trimEnd "a \n"⟩ :: Heap.new.heap) ∧
    (∃ ws, "a \n".data = (trimEnd "a \n").data ++ ws ∧
      ∀ c ∈ ws, isRustWhitespace c = true) ∧
    (∀ c, (trimEnd "a \n").data.getLast? = some c → isRustWhitespace c = false) :=
  C6_trim_spec Heap.new "f" ⟨"a \nb".data, none⟩ "a \n" 3 ⟨"b".data, none⟩
    (by decide) (by decide)

/-- Claim C7 counterexample: registering a stream whose first raw line is just
a terminator stores a cursor whose head is the EMPTY string — the priority
collection does hold cursors with empty heads. -/
theorem C7_counterexample :
    (Heap.add_reader Heap.new "f" ⟨"\n".data, none⟩).1 = .ok (some "") ∧
    (Heap.add_reader Heap.new "f" ⟨"\n".data, none⟩).2.heap =
      [⟨"f", ⟨[], none⟩, ""⟩] ∧
    ("" : String).data = [] := by
  decide

/-- Claim C7 (amended): every cursor held after a registration or a
`Heap.next` call is either one that was already held or one whose head is the
trimmed form of a line obtained by a read that yielded at least one
character (the head may be the empty string when the line was whitespace
only); a read that yields no characters never causes a cursor to be inserted
or re-inserted. -/
theorem C7_heads_from_reads (h : Heap) (fn : String) (src : Source) :
    (∀ e2 ∈ (Heap.add_reader h fn src).2.heap, e2 ∈ h.heap ∨
      ∃ line n s2, readLine src = .ok (line, n, s2) ∧ 0 < n ∧
        e2 = ⟨fn, s2, trimEnd line⟩) ∧
    (∀ line s2, readLine src = .ok (line, 0, s2) → (Heap.add_reader h fn src).2 = h) ∧
    (∀ e2 ∈ (Heap.next h).2.heap, e2 ∈ h.heap ∨
      ∃ e rest line n s2, heapPop Entry.le h.heap = some (e, rest) ∧
        readLine e.reader = .ok (line, n, s2) ∧ 0 < n ∧
        e2 = ⟨e.filename, s2, trimEnd line⟩) := by
  refine ⟨?_, ?_, ?_⟩
  · intro e2 he2
    rw [add_reader_eq_readd] at he2
    rcases hr : readLine src with er | ⟨line, n, s2⟩
    · rw [@readd_reader_error h fn src er hr] at he2
      exact Or.inl he2
    · by_cases hn : 0 < n
      · rw [@readd_reader_push h fn src line n s2 hr hn] at he2
        rcases List.mem_cons.mp ((heapPush_perm Entry.le h.heap _).subset he2) with h1 | h1
        · exact Or.inr ⟨line, n, s2, rfl, hn, h1⟩
        · exact Or.inl h1
      · have h0 : n = 0 := by omega
        subst h0
        rw [@readd_reader_eof h fn src line s2 hr] at he2
        exact Or.inl he2
  · intro line s2 hr
    rw [add_reader_eq_readd, @readd_reader_eof h fn src line s2 hr]
  · intro e2 he2
    rcases hpop : heapPop Entry.le h.heap with _ | ⟨e, rest⟩
    · rw [next_none ((heapPop_none Entry.le h.heap).mp hpop)] at he2
      exact Or.inl he2
    · have hperm := heapPop_perm Entry.le hpop
      rcases hr : readLine e.reader with er | ⟨line, n, s2⟩
      · rw [next_read_error hpop hr] at he2
        exact Or.inl (hperm.subset (List.mem_cons_of_mem e he2))
      · by_cases hn : 0 < n
        · by_cases hord : strCmp (trimEnd line) e.first_line = .lt
          · rw [next_violation hpop hr hn hord] at he2
            rcases List.mem_cons.mp
              ((heapPush_perm Entry.le rest _).subset he2) with h1 | h1
            · exact Or.inr ⟨e, rest, line, n, s2, rfl, hr, hn, h1⟩
            · exact Or.inl (hperm.subset (List.mem_cons_of_mem e h1))
          · rw [next_advance hpop hr hn hord] at he2
            rcases List.mem_cons.mp
              ((heapPush_perm Entry.le rest _).subset he2) with h1 | h1
            · exact Or.inr ⟨e, rest, line, n, s2, rfl, hr, hn, h1⟩
            · exact Or.inl (hperm.subset (List.mem_cons_of_mem e h1))
        · have h0 : n = 0 := by omega
          subst h0
          rw [next_eof hpop hr] at he2
          exact Or.inl (hperm.subset (List.mem_cons_of_mem e he2))

theorem C7_heads_from_reads_witness :
    (⟨"f", ⟨[], none⟩, ""⟩ : Entry) ∈ Heap.new.heap ∨
    ∃ line n s2, readLine ⟨"\n".data, none⟩ = .ok (line, n, s2) ∧ 0 < n ∧
      (⟨"f", ⟨[], none⟩, ""⟩ : Entry) = ⟨"f", s2, trimEnd line⟩ :=
  (C7_heads_from_reads Heap.new "f" ⟨"\n".data, none⟩).1 ⟨"f", ⟨[], none⟩, ""⟩ (by decide)

/-- Claim C9: when the priority collection is empty, `Heap.next` produces end
of sequence with no error and leaves the state unchanged; the collection
never grows across a `Heap.next` call; and once end of sequence has been
signalled, every subsequent `Heap.next` call (with no intervening
registration) also produces end of sequence. -/
theorem C9_end_of_sequence (h : Heap) :
    (h.heap = [] → Heap.next h = (none, h)) ∧
    (Heap.next h).2.heap.length ≤ h.heap.length ∧
    ((Heap.next h).1 = none →
      ∀ k, Heap.next (nextIter (Heap.next h).2 k) = (none, (Heap.next h).2)) := by
  refine ⟨next_none, ?_, ?_⟩
  · rcases hpop : heapPop Entry.le h.heap with _ | ⟨e, rest⟩
    · rw [next_none ((heapPop_none Entry.le h.heap).mp hpop)]
    · have hlen : rest.length + 1 = h.heap.length := by
        have hp := heapPop_perm Entry.le hpop
        have := hp.length_eq
        simpa using this
      rcases hr : readLine e.reader with er | ⟨line, n, s2⟩
      · rw [next_read_error hpop hr]
        dsimp only
        omega
      · by_cases hn : 0 < n
        · by_cases hord : strCmp (trimEnd line) e.first_line = .lt
          · rw [next_violation hpop hr hn hord]
            show (heapPush Entry.le rest _).length ≤ _
            rw [heapPush_length]
            omega
          · rw [next_advance hpop hr hn hord]
            show (heapPush Entry.le rest _).length ≤ _
            rw [heapPush_length]
            omega
        · have h0 : n = 0 := by omega
          subst h0
          rw [next_eof hpop hr]
          dsimp only
          omega
  · intro hnone
    have hemp : h.heap = [] := next_none_heap_empty hnone
    have hnx : Heap.next h = (none, h) := next_none hemp
    have hiter : ∀ k, nextIter (Heap.next h).2 k = h := by
      intro k
      induction k with
      | zero => simp only [hnx, nextIter]
      | succ k2 ih =>
        show (Heap.next (nextIter (Heap.next h).2 k2)).2 = h
        rw [ih, hnx]
    intro k
    rw [hiter k, hnx]

theorem C9_end_of_sequence_witness :
    Heap.next Heap.new = (none, Heap.new) ∧
    (Heap.next Heap.new).2.heap.length ≤ Heap.new.heap.length ∧
    Heap.next (nextIter (Heap.next Heap.new).2 2) = (none, (Heap.next Heap.new).2) :=
  ⟨(C9_end_of_sequence Heap.new).1 rfl,
   (C9_end_of_sequence Heap.new).2.1,
   (C9_end_of_sequence Heap.new).2.2 (by decide) 2⟩

/-- Claim C10: a stream whose final line is not terminator-terminated still
contributes that line: registering it behaves exactly as if the terminator
were present — the same (trimmed) line is returned, the same cursor is
inserted, and the resulting states are equal, so all subsequent output is
identical. -/
theorem C10_no_terminator (h : Heap) (fn : String) (c : List Char)
    (hne : c ≠ []) (hnl : '\n' ∉ c) :
    Heap.add_reader h fn ⟨c, none⟩ = Heap.add_reader h fn ⟨c ++ ['\n'], none⟩ ∧
    (Heap.add_reader h fn ⟨c, none⟩).1 = .ok (some (trimEnd ⟨c⟩)) ∧
    List.Perm (Heap.add_reader h fn ⟨c, none⟩).2.heap
      (⟨fn, ⟨[], none⟩, trimEnd ⟨c⟩⟩ :: h.heap) := by
  have hdrop : c.dropWhile (fun ch => decide (ch ≠ '\n')) = [] := by
    rw [List.dropWhile_eq_nil_iff]
    intro x hx
    simp
    intro hc
    exact hnl (hc ▸ hx)
  have htake : c.takeWhile (fun ch => decide (ch ≠ '\n')) = c := by
    have hh := List.takeWhile_append_dropWhile
      (p := fun ch => decide (ch ≠ '\n')) (l := c)
    rw [hdrop, List.append_nil] at hh
    exact hh
  have hr1 : readLine ⟨c, none⟩ = .ok (⟨c⟩, c.length, ⟨[], none⟩) := by
    unfold readLine
    simp only [hdrop, htake]
  have htake2 : (c ++ ['\n']).takeWhile (fun ch => decide (ch ≠ '\n')) = c := by
    rw [List.takeWhile_append]
    rw [htake]
    simp
  have hdrop2 : (c ++ ['\n']).dropWhile (fun ch => decide (ch ≠ '\n')) = ['\n'] := by
    have hh := List.takeWhile_append_dropWhile
      (p := fun ch => decide (ch ≠ '\n')) (l := c ++ ['\n'])
    rw [htake2] at hh
    exact List.append_cancel_left hh
  have hr2 : readLine ⟨c ++ ['\n'], none⟩ = .ok (⟨c ++ ['\n']⟩, c.length + 1, ⟨[], none⟩) := by
    unfold readLine
    simp only [hdrop2, htake2]
  have hlen : 0 < c.length := List.length_pos.mpr hne
  have hp1 := @readd_reader_push h fn ⟨c, none⟩ ⟨c⟩ c.length ⟨[], none⟩ hr1 hlen
  have hp2 := @readd_reader_push h fn ⟨c ++ ['\n'], none⟩ ⟨c ++ ['\n']⟩ (c.length + 1) ⟨[], none⟩ hr2 (by omega)
  refine ⟨?_, ?_, ?_⟩
  · show Heap.readd_reader h fn ⟨c, none⟩ = Heap.readd_reader h fn ⟨c ++ ['\n'], none⟩
    rw [hp1, hp2, trimEnd_append_newline]
  · show (Heap.readd_reader h fn ⟨c, none⟩).1 = _
    rw [hp1]
  · show List.Perm (Heap.readd_reader h fn ⟨c, none⟩).2.heap _
    rw [hp1]
    exact heapPush_perm Entry.le h.heap _

theorem C10_no_terminator_witness :
    Heap.add_reader Heap.new "f" ⟨"foo".data, none⟩ =
      Heap.add_reader Heap.new "f" ⟨"foo".data ++ ['\n'], none⟩ ∧
    (Heap.add_reader Heap.new "f" ⟨"foo".data, none⟩).1 = .ok (some (trimEnd ⟨"foo".data⟩)) ∧
    List.Perm (Heap.add_reader Heap.new "f" ⟨"foo".data, none⟩).2.heap
      (⟨"f", ⟨[], none⟩, trimEnd ⟨"foo".data⟩⟩ :: Heap.new.heap) :=
  C10_no_terminator Heap.new "f" "foo".data (by decide) (by decide)

/-- Claim C1 counterexample: two singleton streams, each trivially sorted,
registered under the SAME label `"f"`; the label-equality short circuit in
`Entry.cmp` makes the heap treat the two cursors as equal, and the drained
output comes out as `["b","a"]` — the multiset union, but NOT in
non-decreasing order, falsifying the claim for arbitrary label
collections. -/
theorem C1_counterexample :
    (∀ p ∈ ([("f", ⟨"b".data, none⟩), ("f", ⟨"a".data, none⟩)] :
        List (String × Source)),
      p.2.fault = none ∧ List.Chain' strLe (linesOf p.2.content)) ∧
    drain (addAll Heap.new [("f", ⟨"b".data, none⟩), ("f", ⟨"a".data, none⟩)]) =
      [Except.ok "b", Except.ok "a"] ∧
    ¬ List.Chain' strLe ["b", "a"] := by
  decide

/-- Claim C1 (amended): for every finite collection of fault-free input
streams registered under PAIRWISE DISTINCT labels, each stream individually
sorted in non-decreasing lexicographic order, the sequence of items produced
by repeated `Heap.next` calls is exactly the multiset union of all input
lines arranged in non-decreasing lexicographic order, every produced item a
successful line and no errors. -/
theorem C1_sorted_merge (streams : List (String × List Char))
    (hnd : (streams.map Prod.fst).Nodup)
    (hsort : ∀ p ∈ streams, List.Chain' strLe (linesOf p.2)) :
    ∃ ls : List String,
      drain (addAll Heap.new (streams.map (fun p => (p.1, ⟨p.2, none⟩)))) =
        ls.map Except.ok ∧
      List.Perm ls ((streams.map (fun p => linesOf p.2)).flatten) ∧
      List.Chain' strLe ls := by
  have hinv0 : MergeInv Heap.new := by
    refine ⟨?_, ?_, ?_⟩
    · intro e he
      simp [Heap.new] at he
    · simp [Heap.new]
    · intro j x p hj hx hp
      simp [Heap.new] at hx
  obtain ⟨hinv, hperm⟩ := addAll_inv (streams.map fun p => (p.1, ⟨p.2, none⟩)) Heap.new
    hinv0
    (by
      intro q hq
      obtain ⟨p, hp, hpq⟩ := List.mem_map.mp hq
      subst hpq
      exact ⟨rfl, hsort p hp⟩)
    (by
      show ((streams.map (fun p => (p.1, (⟨p.2, none⟩ : Source)))).map Prod.fst ++
        Heap.new.heap.map Entry.filename).Nodup
      rw [List.map_map]
      simp [Heap.new]
      simpa [Function.comp] using hnd)
  obtain ⟨ls, hd, hp2, hchain, _⟩ :=
    drain_sorted_of_inv (heapMeasure (addAll Heap.new
      (streams.map (fun p => (p.1, ⟨p.2, none⟩))))) _ (Nat.le_refl _) hinv
  refine ⟨ls, hd, ?_, hchain⟩
  refine (hp2.trans hperm).trans ?_
  have hmaps : (List.map (fun p => linesOf p.2.content)
      (streams.map (fun p => (p.1, (⟨p.2, none⟩ : Source))))) =
      streams.map (fun p => linesOf p.2) := by
    rw [List.map_map]
    rfl
  rw [hmaps]
  simp [allLines, Heap.new]

theorem C1_sorted_merge_witness :
    (([("file1", "a\nc".data), ("file2", "b\nd".data)] :
        List (String × List Char)).map Prod.fst).Nodup ∧
    (∀ p ∈ ([("file1", "a\nc".data), ("file2", "b\nd".data)] :
        List (String × List Char)), List.Chain' strLe (linesOf p.2)) ∧
    (∃ ls : List String,
      drain (addAll Heap.new (([("file1", "a\nc".data), ("file2", "b\nd".data)] :
          List (String × List Char)).map (fun p => (p.1, ⟨p.2, none⟩)))) =
        ls.map Except.ok ∧
      List.Perm ls ((([("file1", "a\nc".data), ("file2", "b\nd".data)] :
          List (String × List Char)).map (fun p => linesOf p.2)).flatten) ∧
      List.Chain' strLe ls) :=
  ⟨by decide, by decide, C1_sorted_merge _ (by decide) (by decide)⟩

/-- Claim C8: registering two distinct streams under the same label is
permitted and both contribute: for ANY finite collection of fault-free
individually sorted streams (labels arbitrary, duplicates allowed), the
items produced by repeated `Heap.next` calls are all successful lines and
form exactly the multiset union of all input lines.  (The witness registers
two distinct streams under the same label.) -/
theorem C8_same_label_merge (streams : List (String × List Char))
    (hsort : ∀ p ∈ streams, List.Chain' strLe (linesOf p.2)) :
    ∃ ls : List String,
      drain (addAll Heap.new (streams.map (fun p => (p.1, ⟨p.2, none⟩)))) =
        ls.map Except.ok ∧
      List.Perm ls ((streams.map (fun p => linesOf p.2)).flatten) := by
  obtain ⟨hgood, hperm⟩ := addAll_good (streams.map fun p => (p.1, ⟨p.2, none⟩)) Heap.new
    (by
      intro e he
      simp [Heap.new] at he)
    (by
      intro q hq
      obtain ⟨p, hp, hpq⟩ := List.mem_map.mp hq
      subst hpq
      exact ⟨rfl, hsort p hp⟩)
  obtain ⟨ls, hd, hp2⟩ := drain_ok_perm (heapMeasure (addAll Heap.new
    (streams.map (fun p => (p.1, ⟨p.2, none⟩))))) _ (Nat.le_refl _) hgood
  refine ⟨ls, hd, ?_⟩
  refine (hp2.trans hperm).trans ?_
  have hmaps : (List.map (fun p => linesOf p.2.content)
      (streams.map (fun p => (p.1, (⟨p.2, none⟩ : Source))))) =
      streams.map (fun p => linesOf p.2) := by
    rw [List.map_map]
    rfl
  rw [hmaps]
  simp [allLines, Heap.new]

theorem C8_same_label_merge_witness :
    (∀ p ∈ ([("file1", "a\nc".data), ("file1", "b\nd".data)] :
        List (String × List Char)), List.Chain' strLe (linesOf p.2)) ∧
    (∃ ls : List String,
      drain (addAll Heap.new (([("file1", "a\nc".data), ("file1", "b\nd".data)] :
          List (String × List Char)).map (fun p => (p.1, ⟨p.2, none⟩)))) =
        ls.map Except.ok ∧
      List.Perm ls ((([("file1", "a\nc".data), ("file1", "b\nd".data)] :
          List (String × List Char)).map (fun p => linesOf p.2)).flatten)) :=
  ⟨by decide, C8_same_label_merge _ (by decide)⟩
